import Mathlib

/-!
Shallow embedding of the ID3 decision-tree trainer
(`src/id3_algorithm/tree.py`, `entropy.py`, `variance.py`).

Conventions of the embedding:
* A Python `Optional[Node]` is the inductive `OptNode`, whose `absent`
  constructor stands for Python `None`; a `Node` object corresponds to the
  `node` constructor with its `value`, `idx`, `zeroes`, `ones`, `left`,
  `right` fields.
* A pandas data-frame row is an association list from column name to the
  integer stored there; the data frame itself is the list of its rows.
* In-place mutation of the tree is explicit state passing on the `BTree`
  structure (root plus index counter), and errors raised by the Python code
  become `Except TreeErr` values, with one abstract error kind per distinct
  failure site.
* Floating-point arithmetic (`math.log`, division) is idealised as real
  arithmetic, and the accuracy percentage as a rational number.
-/

/-- One data-frame row: column name to stored integer value. -/
abbrev Row := List (String × Int)

/-- The designated target column, `TARGET_COLUMN = "Class"`. -/
def TARGET_COLUMN : String := "Class"

/-- Abstract error kinds, one per distinct failure site of the Python code,
named as in the specification's error-handling design where it names them. -/
inductive TreeErr where
  /-- creating a second root (`"Root node already exists"`). -/
  | invalidState
  /-- non-root node with a branch value other than 0/1. -/
  | invalidArgument
  /-- accuracy/traversal requested on a tree with no root. -/
  | emptyTree
  /-- traversal needs a child that is absent, or the row lacks the attribute. -/
  | missingBranch
  /-- a leaf with an absent label was reached. -/
  | invalidLeaf
  /-- `_find_node` found no node with the requested index. -/
  | nodeNotFound
  /-- `int(...)` failed to parse a leaf label. -/
  | badLabel
  /-- Python `ZeroDivisionError`. -/
  | zeroDivision
  /-- Python `KeyError` reading the target column of the data frame. -/
  | keyError
  /-- Python `max()` applied to an empty sequence. -/
  | emptyMax
deriving DecidableEq, Repr

/-- A Python `Optional[Node]`: `absent` is `None`, `node` carries the five
fields of the `Node` dataclass (children folded into the same type). -/
inductive OptNode where
  | absent : OptNode
  | node (value : Option String) (idx : Nat) (zeroes : Nat) (ones : Nat)
      (left : OptNode) (right : OptNode) : OptNode
deriving DecidableEq, Repr

/-- The `BTree` class: a root reference plus the index-assignment counter. -/
structure BTree where
  root : OptNode
  counter : Nat
deriving DecidableEq, Repr

instance {e a : Type} [DecidableEq e] [DecidableEq a] : DecidableEq (Except e a) :=
  fun x y =>
  match x, y with
  | .error e1, .error e2 =>
    decidable_of_iff (e1 = e2)
      (by constructor
          · intro h; rw [h]
          · intro h; injection h)
  | .error _, .ok _ => .isFalse (fun h => Except.noConfusion h)
  | .ok _, .error _ => .isFalse (fun h => Except.noConfusion h)
  | .ok a1, .ok a2 =>
    decidable_of_iff (a1 = a2)
      (by constructor
          · intro h; rw [h]
          · intro h; injection h)

namespace OptNode

/-- Indices of all nodes of a subtree, in preorder (node, left, right). -/
def indices : OptNode → List Nat
  | .absent => []
  | .node _ i _ _ l r => i :: (indices l ++ indices r)

/-- Height of a subtree (`absent` has height 0). -/
def height : OptNode → Nat
  | .absent => 0
  | .node _ _ _ _ l r => 1 + max (height l) (height r)

/-- `_find_node_recursive` followed by an assignment to `parent.left`
(`isLeft = true`) or `parent.right` (`isLeft = false`): replaces the chosen
child of the first node in preorder whose index is `idx`, returning `none`
when no node carries that index. -/
def setChildAt (isLeft : Bool) (idx : Nat) (child : OptNode) : OptNode → Option OptNode
  | .absent => none
  | .node v j z o l r =>
    if j = idx then
      some (if isLeft then .node v j z o child r else .node v j z o l child)
    else
      match setChildAt isLeft idx child l with
      | some l2 => some (.node v j z o l2 r)
      | none =>
        match setChildAt isLeft idx child r with
        | some r2 => some (.node v j z o l r2)
        | none => none

/-- Reads the child slot that `setChildAt` would overwrite: the left
(`isLeft = true`) or right child of the first node in preorder with index
`idx`. -/
def getChildSlot (isLeft : Bool) (idx : Nat) : OptNode → Option OptNode
  | .absent => none
  | .node _ j _ _ l r =>
    if j = idx then some (if isLeft then l else r)
    else
      match getChildSlot isLeft idx l with
      | some c => some c
      | none => getChildSlot isLeft idx r

/-- The non-leaf subtrees in preorder, mirroring `_collect_non_leaves`
(a node is appended before its children are visited). -/
def nonLeaves : OptNode → List OptNode
  | .absent => []
  | .node v j z o l r =>
    (if l = .absent ∧ r = .absent then [] else [.node v j z o l r])
      ++ nonLeaves l ++ nonLeaves r

/-- Collapse of the `n`-th non-leaf node in preorder (the node
`random.choice(non_leaves)` picks when it picks list position `n`): both
children are discarded and the label becomes the majority class of the
stored counts, `"1"` when `ones >= zeroes`. -/
def collapseAt : OptNode → Nat → OptNode
  | .absent, _ => .absent
  | .node v j z o l r, n =>
    if l = .absent ∧ r = .absent then .node v j z o l r
    else if n = 0 then
      .node (some (if z ≤ o then "1" else "0")) j z o .absent .absent
    else if n - 1 < (nonLeaves l).length then
      .node v j z o (collapseAt l (n - 1)) r
    else
      .node v j z o l (collapseAt r (n - 1 - (nonLeaves l).length))

end OptNode

/-- Value stored at a row for an optional attribute name: `sample[key]`,
where a `None` key or a missing key raises `KeyError`. -/
def lookupAttr (sample : Row) : Option String → Option Int
  | none => none
  | some a => sample.lookup a

/-- `BTree.traverse`: classification of `sample` starting at a node.  A leaf
returns the integer parse of its label (`InvalidLeaf` when the label is
absent, `badLabel` when it does not parse); an internal node reads the
row's value for the node's attribute (`MissingBranch` when the row lacks
it), then follows `left` on 0 — any other value goes `right` — failing with
`MissingBranch` when the required child is absent.  The source never calls
`traverse` on `None`; that unreachable case is mapped to the empty-tree
error.  `parseLeafLabel` is the leaf case: `int(node.value)` with the
absent-label check before it. -/
def digitsToNat : List Char → Nat → Option Nat
  | [], acc => some acc
  | c :: cs, acc =>
    if c.isDigit then digitsToNat cs (acc * 10 + (c.toNat - 48))
    else none

/-- Python `int(s)` restricted to the shapes this program can meet: an
optional sign followed by decimal digits parses, anything else raises. -/
def pyInt (s : String) : Option Int :=
  match s.data with
  | [] => none
  | '-' :: cs => if cs = [] then none else (digitsToNat cs 0).map (fun n => -(n : Int))
  | cs => (digitsToNat cs 0).map (fun n => (n : Int))

def parseLeafLabel : Option String → Except TreeErr Int
  | none => .error .invalidLeaf
  | some s =>
    match pyInt s with
    | some n => .ok n
    | none => .error .badLabel

/-- `BTree.traverse`, continued (see the comment above): the two None checks
of the source become the two `.absent` tests, and reading `sample[value]`
is the `Option.elim` on `lookupAttr`. -/
def BTree.traverse : OptNode → Row → Except TreeErr Int
  | .absent, _ => .error .emptyTree
  | .node value _ _ _ left right, sample =>
    if left = .absent ∧ right = .absent then
      parseLeafLabel value
    else
      (lookupAttr sample value).elim (.error .missingBranch) (fun branch =>
        if branch = 0 then
          if left = .absent then .error .missingBranch
          else BTree.traverse left sample
        else
          if right = .absent then .error .missingBranch
          else BTree.traverse right sample)

/-- The specification's `predict(tree, row)`: fails with `EmptyTree` when the
tree has no root, otherwise classifies the row from the root. -/
def predict (t : BTree) (sample : Row) : Except TreeErr Int :=
  match t.root with
  | .absent => .error .emptyTree
  | .node v j z o l r => BTree.traverse (.node v j z o l r) sample

/-- `BTree.add_root`: fails when a root already exists, otherwise installs a
root carrying the current counter as index (the counter is not bumped) and
returns the new index. -/
def add_root (t : BTree) (value : Option String) (zeroes ones : Nat) :
    Except TreeErr (Nat × BTree) :=
  match t.root with
  | .absent =>
      .ok (t.counter, ⟨.node value t.counter zeroes ones .absent .absent, t.counter⟩)
  | _ => .error .invalidState

/-- `BTree.add_left_child`: finds the parent by index (error when absent),
bumps the counter and installs the new node as its left child. -/
def add_left_child (t : BTree) (parent_idx : Nat) (value : Option String)
    (zeroes ones : Nat) : Except TreeErr (Nat × BTree) :=
  match OptNode.setChildAt true parent_idx
      (.node value (t.counter + 1) zeroes ones .absent .absent) t.root with
  | some r => .ok (t.counter + 1, ⟨r, t.counter + 1⟩)
  | none => .error .nodeNotFound

/-- `BTree.add_right_child`, symmetric to `add_left_child`. -/
def add_right_child (t : BTree) (parent_idx : Nat) (value : Option String)
    (zeroes ones : Nat) : Except TreeErr (Nat × BTree) :=
  match OptNode.setChildAt false parent_idx
      (.node value (t.counter + 1) zeroes ones .absent .absent) t.root with
  | some r => .ok (t.counter + 1, ⟨r, t.counter + 1⟩)
  | none => .error .nodeNotFound

/-- `_create_node` (identical in `entropy.py` and `variance.py`): a `None`
parent creates the root (failing when one exists); otherwise branch value 0
attaches a left child, 1 a right child, and anything else is rejected. -/
def _create_node (t : BTree) (parent_idx : Option Nat) (branch_value : Option Int)
    (value : String) (zeroes ones : Nat) : Except TreeErr (Nat × BTree) :=
  match parent_idx with
  | none =>
    match t.root with
    | .absent => add_root t (some value) zeroes ones
    | _ => .error .invalidState
  | some p =>
    if branch_value = some 0 then add_left_child t p (some value) zeroes ones
    else if branch_value = some 1 then add_right_child t p (some value) zeroes ones
    else .error .invalidArgument

/-- `entropy(positive_count, negative_count)` from `entropy.py`, with the
float arithmetic idealised over the reals (`math.log(p, 2)` is `logb 2`). -/
noncomputable def entropy (positive_count negative_count : Nat) : ℝ :=
  if positive_count + negative_count = 0 then 0
  else
    let total : ℝ := ((positive_count + negative_count : Nat) : ℝ)
    let p_pos : ℝ := (positive_count : ℝ) / total
    let p_neg : ℝ := (negative_count : ℝ) / total
    if positive_count = 0 ∨ negative_count = 0 then 0
    else -p_pos * Real.logb 2 p_pos - p_neg * Real.logb 2 p_neg

/-- `variance_impurity(positive_count, negative_count)` from `variance.py`. -/
noncomputable def variance_impurity (positive_count negative_count : Nat) : ℝ :=
  if positive_count + negative_count = 0 then 0
  else if positive_count = 0 ∨ negative_count = 0 then 0
  else
    let total : ℝ := ((positive_count + negative_count : Nat) : ℝ)
    ((positive_count : ℝ) / total) * ((negative_count : ℝ) / total)

/-- `dataset.loc[dataset[attr] == value]` (source name `attribute`): the rows whose stored value
for `attribute` is `value`. -/
def subsetOf (dataset : List Row) (attr : String) (value : Int) : List Row :=
  dataset.filter (fun r => r.lookup attr == some value)

/-- `len(dataset.loc[dataset[TARGET_COLUMN] == value])`: how many rows carry
`value` in the target column. -/
def countClass (dataset : List Row) (value : Int) : Nat :=
  (dataset.filter (fun r => r.lookup TARGET_COLUMN == some value)).length

/-- The weighted child-impurity sum accumulated for one candidate attribute
by `_information_gain` / `_variance_gain`: for each attribute value 0 and 1,
`(negative + positive) / len(dataset) * impurity(positive, negative)`. -/
noncomputable def subtotalFor (imp : Nat → Nat → ℝ) (dataset : List Row)
    (attr : String) : ℝ :=
  ((countClass (subsetOf dataset attr 0) 0
      + countClass (subsetOf dataset attr 0) 1 : Nat) : ℝ)
      / (dataset.length : ℝ)
      * imp (countClass (subsetOf dataset attr 0) 1)
            (countClass (subsetOf dataset attr 0) 0)
  + ((countClass (subsetOf dataset attr 1) 0
      + countClass (subsetOf dataset attr 1) 1 : Nat) : ℝ)
      / (dataset.length : ℝ)
      * imp (countClass (subsetOf dataset attr 1) 1)
            (countClass (subsetOf dataset attr 1) 0)

/-- The gain recorded for one candidate attribute:
`total_impurity - subtotal`. -/
noncomputable def gain (imp : Nat → Nat → ℝ) (total_impurity : ℝ)
    (dataset : List Row) (attr : String) : ℝ :=
  total_impurity - subtotalFor imp dataset attr

/-- Python `max` on a non-empty list (`listMax [] = 0` is never used). -/
noncomputable def listMax : List ℝ → ℝ
  | [] => 0
  | x :: xs => xs.foldl max x

/-- `gains.index(max(gains))`: the first position holding the maximum. -/
noncomputable def firstMaxIdx (gains : List ℝ) : Nat :=
  gains.findIdx (fun g => decide (listMax gains ≤ g))

/-- `_information_gain` / `_variance_gain`, which differ only in the impurity
function `imp` they call: builds the per-attribute gain list and returns the
attribute at the first position of the maximal gain.  `max` of the empty
gain list (empty candidate list) and the division by `len(dataset) = 0` are
the two failure sites; the index into `attributes` is always in range, so
the fallback argument of `getD` (which keeps the result inside the
candidate list) is never used. -/
noncomputable def best_attribute (imp : Nat → Nat → ℝ) (total_impurity : ℝ)
    (dataset : List Row) (attributes : List String) : Except TreeErr String :=
  match attributes with
  | [] => .error .emptyMax
  | a :: rest =>
    if dataset.length = 0 then .error .zeroDivision
    else
      .ok ((a :: rest).getD
        (firstMaxIdx ((a :: rest).map (gain imp total_impurity dataset))) a)

/-- `_information_gain` from `entropy.py`. -/
noncomputable def _information_gain (total_entropy : ℝ) (dataset : List Row)
    (attributes : List String) : Except TreeErr String :=
  best_attribute entropy total_entropy dataset attributes

/-- `_variance_gain` from `variance.py`. -/
noncomputable def _variance_gain (total_variance : ℝ) (dataset : List Row)
    (attributes : List String) : Except TreeErr String :=
  best_attribute variance_impurity total_variance dataset attributes

/-- `_build_tree` (identical in `entropy.py` and `variance.py` up to the
impurity function `imp`): counts target classes, creates a leaf when the
dataset is pure or no attributes remain, otherwise creates an internal node
labelled with the best attribute, removes that attribute, and recurses for
the two attribute values, attaching a majority-class leaf directly when a
value's subset is empty.  Recursion terminates because the chosen attribute
belongs to the candidate list, so the filtered remaining list is strictly
shorter. -/
noncomputable def _build_tree (imp : Nat → Nat → ℝ) (dataset : List Row)
    (attributes : List String) (decision_tree : BTree)
    (parent_idx : Option Nat) (branch_value : Option Int) :
    Except TreeErr BTree :=
  let ones := countClass dataset 1
  let zeroes := countClass dataset 0
  if ones = 0 then
    (_create_node decision_tree parent_idx branch_value "0" zeroes ones).map
      (fun pr => pr.2)
  else if zeroes = 0 then
    (_create_node decision_tree parent_idx branch_value "1" zeroes ones).map
      (fun pr => pr.2)
  else if attributes = [] then
    (_create_node decision_tree parent_idx branch_value
      (if zeroes ≤ ones then "1" else "0") zeroes ones).map (fun pr => pr.2)
  else
    match hba : best_attribute imp (imp ones zeroes) dataset attributes with
    | .error e => .error e
    | .ok best =>
      match _create_node decision_tree parent_idx branch_value best zeroes ones with
      | .error e => .error e
      | .ok (current_idx, t1) =>
        let remaining := attributes.filter (fun a => a ≠ best)
        let subset0 := subsetOf dataset best 0
        match (if subset0 = [] then
                (_create_node t1 (some current_idx) (some 0)
                  (if zeroes ≤ ones then "1" else "0") zeroes ones).map
                  (fun pr => pr.2)
              else _build_tree imp subset0 remaining t1 (some current_idx) (some 0)) with
        | .error e => .error e
        | .ok t2 =>
          let subset1 := subsetOf dataset best 1
          if subset1 = [] then
            (_create_node t2 (some current_idx) (some 1)
              (if zeroes ≤ ones then "1" else "0") zeroes ones).map
              (fun pr => pr.2)
          else _build_tree imp subset1 remaining t2 (some current_idx) (some 1)
termination_by attributes.length
decreasing_by
all_goals {
  have hmemgen : ∀ (i2 : Nat → Nat → ℝ) (ti : ℝ) (ds : List Row)
      (l : List String) (b : String),
      best_attribute i2 ti ds l = .ok b → b ∈ l := by
    intro i2 ti ds l b h
    cases l with
    | nil => exact absurd h (by simp [best_attribute])
    | cons a rest =>
      rw [best_attribute] at h
      by_cases hd : ds.length = 0
      · rw [if_pos hd] at h
        exact absurd h (by simp)
      · rw [if_neg hd] at h
        injection h with h
        subst h
        rw [List.getD_eq_getElem?_getD]
        cases hg : (a :: rest)[firstMaxIdx ((a :: rest).map (gain i2 ti ds))]? with
        | none => simp
        | some x => simpa using List.getElem?_mem hg
  have hflt : ∀ (l : List String) (b : String), b ∈ l →
      (l.filter (fun a => a ≠ b)).length < l.length := by
    intro l b hb
    induction l with
    | nil => cases hb
    | cons x xs ih =>
      by_cases hx : x = b
      · subst hx
        have hle := List.length_filter_le (fun a => decide (a ≠ x)) xs
        have hcond : (decide (x ≠ x)) = false := by simp
        rw [List.filter_cons, hcond]
        simp only [Bool.false_eq_true, if_false, List.length_cons]
        omega
      · have hmem2 : b ∈ xs := by
          rcases List.mem_cons.mp hb with h | h
          · exact absurd h.symm hx
          · exact h
        have hcond : (decide (x ≠ b)) = true := by simp [hx]
        rw [List.filter_cons, hcond]
        simp only [if_true, List.length_cons]
        exact Nat.succ_lt_succ (ih hmem2)
  exact hflt attributes best (hmemgen _ _ _ _ _ hba)
}

/-- `construct_tree`: the attribute list is the data frame's columns with the
target column dropped (a data frame is modelled by its column list `cols`
and its rows), and building starts from a fresh `BTree` at the root. -/
noncomputable def construct_tree (imp : Nat → Nat → ℝ) (cols : List String)
    (rows : List Row) : Except TreeErr BTree :=
  _build_tree imp rows (cols.filter (fun c => c ≠ TARGET_COLUMN)) ⟨.absent, 0⟩
    none none

/-- The entropy-driven `construct_tree` of `entropy.py`. -/
noncomputable def entropy_construct_tree (cols : List String) (rows : List Row) :
    Except TreeErr BTree :=
  construct_tree entropy cols rows

/-- The variance-driven `construct_tree` of `variance.py`. -/
noncomputable def variance_construct_tree (cols : List String) (rows : List Row) :
    Except TreeErr BTree :=
  construct_tree variance_impurity cols rows

/-- `dataset.drop(columns=[TARGET_COLUMN])` applied to one row. -/
def dropClass (r : Row) : Row :=
  r.filter (fun kv => kv.1 ≠ TARGET_COLUMN)

/-- The scoring loop of `calculate_accuracy`: for each row in order, predict
on the row without its target column, compare with the row's target value
(`KeyError` when the row lacks it), and count the matches.  Any error raised
by a traversal aborts the whole loop, as the Python exception does. -/
def accRows (root : OptNode) : List Row → Except TreeErr Nat
  | [] => .ok 0
  | r :: rest =>
    match BTree.traverse root (dropClass r) with
    | .error e => .error e
    | .ok pred =>
      match r.lookup TARGET_COLUMN with
      | none => .error .keyError
      | some cls =>
        match accRows root rest with
        | .error e => .error e
        | .ok m => .ok (if pred = cls then m + 1 else m)

/-- `calculate_accuracy` (identical in both modules): requires a root, scores
every row, and returns `matches / len(dataset) * 100`; the unguarded Python
division raises `ZeroDivisionError` on an empty dataset. -/
def calculate_accuracy (dataset : List Row) (decision_tree : BTree) :
    Except TreeErr ℚ :=
  match decision_tree.root with
  | .absent => .error .emptyTree
  | .node v j z o l r =>
    match accRows (.node v j z o l r) dataset with
    | .error e => .error e
    | .ok m2 =>
      if dataset.length = 0 then .error .zeroDivision
      else .ok ((m2 : ℚ) / (dataset.length : ℚ) * 100)

/-- The inner loop of one pruning trial: at each step collect the non-leaf
nodes, stop early when none remain, otherwise collapse the one chosen by
the random oracle `pick` (step number to raw random value; taking the value
modulo the list length ranges over exactly the choices `random.choice`
can make). -/
def pruneSteps (pick : Nat → Nat) : Nat → Nat → OptNode → OptNode
  | _, 0, cand => cand
  | j, steps + 1, cand =>
    let nl := cand.nonLeaves
    if nl = [] then cand
    else pruneSteps pick (j + 1) steps (cand.collapseAt (pick j % nl.length))

/-- The trial loop of `post_pruning`: each trial deep-copies the base tree
(copying is the identity on values), applies a random number of collapses
drawn from `[1, max(k,1)]` (`cnt` is the per-trial random oracle), scores
the candidate, and keeps it only on a strict improvement.  An error while
scoring propagates out, as the Python exception does. -/
def pruneTrials (validation : List Row) (base : BTree) (kEff : Nat)
    (cnt : Nat → Nat) (pick : Nat → Nat → Nat) :
    Nat → BTree → ℚ → Except TreeErr (BTree × ℚ)
  | 0, best, score => .ok (best, score)
  | n + 1, best, score =>
    let draw := Nat.max (1 + cnt n % kEff) 1
    let cand : BTree := ⟨pruneSteps (pick n) 0 draw base.root, base.counter⟩
    match calculate_accuracy validation cand with
    | .error e => .error e
    | .ok a =>
      if score < a then pruneTrials validation base kEff cnt pick n cand a
      else pruneTrials validation base kEff cnt pick n best score

/-- `post_pruning` (identical in both modules): `best` starts as a deep copy
of the base tree with its validation accuracy, then `max(l,1)` independent
trials run, and the best tree found is returned.  The random draws
`random.randint(1, max(k,1))` and `random.choice` are supplied by the
oracles `cnt` and `pick`, quantifying over every possible outcome. -/
def post_pruning (l k : Int) (validation : List Row) (base_tree : BTree)
    (cnt : Nat → Nat) (pick : Nat → Nat → Nat) : Except TreeErr BTree :=
  match calculate_accuracy validation base_tree with
  | .error e => .error e
  | .ok current_best =>
    match pruneTrials validation base_tree (max k 1).toNat cnt pick
        (max l 1).toNat base_tree current_best with
    | .error e => .error e
    | .ok (best, _) => .ok best

/-- Predicate: every value stored in the row is 0 or 1, the data model's
contract for dataset rows. -/
def rowValues01 (r : Row) : Prop :=
  ∀ kv ∈ r, kv.2 = 0 ∨ kv.2 = 1

instance (r : Row) : Decidable (rowValues01 r) := by
  unfold rowValues01; infer_instance

/-- Predicate: every value of every row of the dataset is 0 or 1. -/
def datasetValues01 (rows : List Row) : Prop :=
  ∀ r ∈ rows, rowValues01 r

instance (rows : List Row) : Decidable (datasetValues01 rows) := by
  unfold datasetValues01; infer_instance

/-- The evaluator exactly as the specification words it (section 4.3):
start at the root; at each internal node read the row's value for the
node's attribute, follow `left` on 0 and `right` on 1; fail with
`MissingBranch` when the corresponding child is absent or the row lacks the
attribute; return the integer parse of the label once a leaf is reached,
failing with `InvalidLeaf` when the leaf's label is absent.  Rows map
attributes to 0/1 by the data model, so no other value reaches the final
catch-all. -/
def predictSpec : OptNode → Row → Except TreeErr Int
  | .absent, _ => .error .emptyTree
  | .node value _ _ _ left right, sample =>
    if left = .absent ∧ right = .absent then
      parseLeafLabel value
    else
      (lookupAttr sample value).elim (.error .missingBranch) (fun branch =>
        if branch = 0 then
          if left = .absent then .error .missingBranch
          else predictSpec left sample
        else if branch = 1 then
          if right = .absent then .error .missingBranch
          else predictSpec right sample
        else .error .missingBranch)

/-- A `Node` object as it lives on the Python heap: the two child fields are
references (addresses) rather than values.  This refined model witnesses
the aliasing discipline of `post_pruning`, which the value-level model
cannot express. -/
structure HNode where
  value : Option String
  idx : Nat
  zeroes : Nat
  ones : Nat
  left : Option Nat
  right : Option Nat
deriving DecidableEq, Repr

/-- The heap: an association list from address to node (the first binding
wins, so updates simply prepend) plus the next fresh address. -/
structure Store where
  mem : List (Nat × HNode)
  next : Nat
deriving DecidableEq, Repr

namespace Store

/-- Dereference an address. -/
def get (σ : Store) (a : Nat) : Option HNode :=
  σ.mem.lookup a

/-- Overwrite the node at an (existing) address. -/
def set (σ : Store) (a : Nat) (n : HNode) : Store :=
  ⟨(a, n) :: σ.mem, σ.next⟩

/-- Allocate a fresh address for a node. -/
def alloc (σ : Store) (n : HNode) : Nat × Store :=
  (σ.next, ⟨(σ.next, n) :: σ.mem, σ.next + 1⟩)

end Store

/-- Well-formedness of a store: every binding lives below `next`, and so do
all child references it stores. -/
def storeBound (σ : Store) : Bool :=
  σ.mem.all (fun pr =>
    decide (pr.1 < σ.next) && pr.2.left.all (fun b => decide (b < σ.next))
      && pr.2.right.all (fun b => decide (b < σ.next)))

/-- Read the value tree rooted at a reference out of the heap, with fuel
bounding the depth (`none` on dangling references or fuel exhaustion).
This is the abstraction function from the heap model to the value model:
it recovers the structure, labels, indices and counts of a tree. -/
def readTreeF : Nat → Store → Option Nat → Option OptNode
  | _, _, none => some .absent
  | 0, _, some _ => none
  | fuel + 1, σ, some a =>
    match σ.get a with
    | none => none
    | some n =>
      match readTreeF fuel σ n.left, readTreeF fuel σ n.right with
      | some l, some r => some (.node n.value n.idx n.zeroes n.ones l r)
      | _, _ => none

/-- All addresses reachable from a reference, in preorder, with fuel. -/
def addrsF : Nat → Store → Option Nat → Option (List Nat)
  | _, _, none => some []
  | 0, _, some _ => none
  | fuel + 1, σ, some a =>
    match σ.get a with
    | none => none
    | some n =>
      match addrsF fuel σ n.left, addrsF fuel σ n.right with
      | some ls, some rs => some (a :: (ls ++ rs))
      | _, _ => none

/-- `_collect_non_leaves` on the heap: the addresses of the reachable
non-leaf nodes, in preorder. -/
def nonLeavesF : Nat → Store → Option Nat → Option (List Nat)
  | _, _, none => some []
  | 0, _, some _ => none
  | fuel + 1, σ, some a =>
    match σ.get a with
    | none => none
    | some n =>
      match nonLeavesF fuel σ n.left, nonLeavesF fuel σ n.right with
      | some ls, some rs =>
        some ((if n.left = none ∧ n.right = none then [] else [a]) ++ (ls ++ rs))
      | _, _ => none

/-- `copy.deepcopy` on a tree reference: recursively copies every reachable
node into freshly allocated addresses, leaving existing bindings alone. -/
def deepcopyF : Nat → Store → Option Nat → Option (Option Nat × Store)
  | _, σ, none => some (none, σ)
  | 0, _, some _ => none
  | fuel + 1, σ, some a =>
    match σ.get a with
    | none => none
    | some n =>
      match deepcopyF fuel σ n.left with
      | none => none
      | some (lc, σ1) =>
        match deepcopyF fuel σ1 n.right with
        | none => none
        | some (rc, σ2) =>
          let al := σ2.alloc { n with left := lc, right := rc }
          some (some al.1, al.2)

/-- The three mutating statements of a prune step, on the heap: discard both
children of the node at `a` and rewrite its label to the majority class of
its stored counts. -/
def collapseH (σ : Store) (a : Nat) : Option Store :=
  match σ.get a with
  | none => none
  | some n =>
    some (σ.set a
      { n with
        left := none
        right := none
        value := some (if n.zeroes ≤ n.ones then "1" else "0") })

/-- `calculate_accuracy` invoked on a heap-resident tree: read the tree out
of the heap (a pure inspection) and score it in the value model. -/
def accuracyH (fuel : Nat) (σ : Store) (root : Option Nat)
    (validation : List Row) : Option (Except TreeErr ℚ) :=
  (readTreeF fuel σ root).map (fun rt => calculate_accuracy validation ⟨rt, 0⟩)

/-- The inner loop of one heap-level pruning trial: `steps` collapse
operations on the candidate, stopping early when no non-leaf remains. -/
def innerH (fuel : Nat) (pick : Nat → Nat) :
    Nat → Nat → Store → Option Nat → Option Store
  | _, 0, σ, _ => some σ
  | j, steps + 1, σ, cand =>
    match nonLeavesF fuel σ cand with
    | none => none
    | some nl =>
      if nl = [] then some σ
      else
        match collapseH σ (nl.getD (pick j % nl.length) 0) with
        | none => none
        | some σ2 => innerH fuel pick (j + 1) steps σ2 cand

/-- The trial loop of `post_pruning` on the heap: deep-copy the base, run
the random number of collapses, score the candidate, keep it on strict
improvement.  A failed evaluation aborts the whole call (`none`), as the
Python exception does. -/
def trialsH (fuel : Nat) (validation : List Row) (base : Option Nat)
    (kEff : Nat) (cnt : Nat → Nat) (pick : Nat → Nat → Nat) :
    Nat → Store → Option Nat → ℚ → Option (Store × Option Nat)
  | 0, σ, best, _ => some (σ, best)
  | n + 1, σ, best, score =>
    match deepcopyF fuel σ base with
    | none => none
    | some (cand, σ1) =>
      match innerH fuel (pick n) 0 (Nat.max (1 + cnt n % kEff) 1) σ1 cand with
      | none => none
      | some σ2 =>
        match accuracyH fuel σ2 cand validation with
        | none => none
        | some (.error _) => none
        | some (.ok a) =>
          if score < a then trialsH fuel validation base kEff cnt pick n σ2 cand a
          else trialsH fuel validation base kEff cnt pick n σ2 best score

/-- `post_pruning` on the heap model: `best_tree = deepcopy(base_tree)` is
scored first, the trials run, and the reference held by `best_tree` at the
end is returned together with the final heap. -/
def post_pruningH (fuel : Nat) (l k : Int) (validation : List Row)
    (σ : Store) (base : Option Nat) (cnt : Nat → Nat)
    (pick : Nat → Nat → Nat) : Option (Store × Option Nat) :=
  match deepcopyF fuel σ base with
  | none => none
  | some (best0, σ1) =>
    match accuracyH fuel σ1 best0 validation with
    | none => none
    | some (.error _) => none
    | some (.ok current_best) =>
      trialsH fuel validation base (max k 1).toNat cnt pick (max l 1).toNat
        σ1 best0 current_best

/-- Strict-binary check: every node of the subtree is a leaf or has both
children present. -/
def strictBinaryB : OptNode → Bool
  | .absent => true
  | .node _ _ _ _ l r =>
    (decide (l = .absent ∧ r = .absent) || decide (l ≠ .absent ∧ r ≠ .absent))
      && strictBinaryB l && strictBinaryB r

/-- Leaf-label check: every leaf of the subtree carries the label `"0"` or
`"1"` (in particular a non-absent label). -/
def leavesLabeled01 : OptNode → Bool
  | .absent => true
  | .node v _ _ _ l r =>
    if l = .absent ∧ r = .absent then decide (v = some "0" ∨ v = some "1")
    else leavesLabeled01 l && leavesLabeled01 r

/-- Internal-label check: every non-leaf node of the subtree is labelled
with an attribute from `attrs`. -/
def internalLabelsIn (attrs : List String) : OptNode → Bool
  | .absent => true
  | .node v _ _ _ l r =>
    if l = .absent ∧ r = .absent then true
    else
      v.elim false (fun a => decide (a ∈ attrs))
        && internalLabelsIn attrs l && internalLabelsIn attrs r


/-- The store invariant maintained by every heap operation of
`post_pruning`, relative to a frontier address `N` (the `next` of the store
the call started from): allocation never dips below `N`, every live binding
and its child references lie below `next`, and the region at or above `N`
is closed under child references — so mutation inside it can never be seen
from a tree living entirely below `N`. -/
def storeInv (N : Nat) (σ : Store) : Prop :=
  N ≤ σ.next ∧
  (∀ a h, σ.get a = some h →
    a < σ.next ∧ (∀ b ∈ h.left, b < σ.next) ∧ (∀ b ∈ h.right, b < σ.next)) ∧
  (∀ a h, σ.get a = some h → N ≤ a →
    (∀ b ∈ h.left, N ≤ b) ∧ (∀ b ∈ h.right, N ≤ b))

/-- A concrete heap fixture: a single leaf node, stored at address 10. -/
def demoNode : HNode := ⟨some "1", 0, 0, 1, none, none⟩

/-- A concrete heap holding only `demoNode`, with 11 the next fresh
address. -/
def demoStore : Store := ⟨[(10, demoNode)], 11⟩

/-- The heap `post_pruning` leaves behind when run on `demoStore`: the two
deep copies live at the fresh addresses 11 and 12, the base node at 10
untouched. -/
def demoStoreFinal : Store :=
  ⟨[(12, demoNode), (11, demoNode), (10, demoNode)], 13⟩

/-! # Shared helper lemmas -/

theorem lookup_mem {α β : Type} [BEq α] [LawfulBEq α] :
    ∀ (l : List (α × β)) (a : α) (b : β), l.lookup a = some b → (a, b) ∈ l := by
  intro l a b h
  induction l with
  | nil => simp at h
  | cons p rest ih =>
    rw [show p = (p.1, p.2) from rfl, List.lookup_cons] at h
    by_cases hk : a == p.1
    · rw [hk] at h
      have hab : a = p.1 := eq_of_beq hk
      injection h with h
      subst hab
      subst h
      simp
    · rw [Bool.not_eq_true] at hk
      rw [hk] at h
      exact List.mem_cons_of_mem _ (ih h)

theorem setChildAt_isSome_iff (s : Bool) (i : Nat) (c : OptNode) :
    ∀ t : OptNode, (OptNode.setChildAt s i c t).isSome ↔ i ∈ t.indices := by
  intro t
  induction t with
  | absent => simp [OptNode.setChildAt, OptNode.indices]
  | node v j z o l r ihl ihr =>
    simp only [OptNode.setChildAt, OptNode.indices, List.mem_cons, List.mem_append]
    by_cases hj : j = i
    · simp [hj]
    · have hne : ¬ i = j := fun h2 => hj h2.symm
      rw [if_neg hj]
      cases hl : OptNode.setChildAt s i c l with
      | some l2 =>
        have hml : i ∈ l.indices := ihl.mp (by simp [hl])
        simp [hne, hml]
      | none =>
        have hnl : i ∉ l.indices := fun hm => by
          have := ihl.mpr hm
          rw [hl] at this
          exact absurd this (by simp)
        cases hr : OptNode.setChildAt s i c r with
        | some r2 =>
          have hmr : i ∈ r.indices := ihr.mp (by simp [hr])
          simp [hne, hnl, hmr]
        | none =>
          have hnr : i ∉ r.indices := fun hm => by
            have := ihr.mpr hm
            rw [hr] at this
            exact absurd this (by simp)
          simp [hne, hnl, hnr]

/-! # C6: degenerate impurities are zero -/

/-- C6: for every pair of class counts with `p = 0` or `n = 0` (including
both zero), both impurity strategies return 0. -/
theorem impurity_zero_on_degenerate_counts (p n : Nat) (h : p = 0 ∨ n = 0) :
    entropy p n = 0 ∧ variance_impurity p n = 0 := by
  constructor
  · unfold entropy
    split
    · rfl
    · simp [h]
  · unfold variance_impurity
    split
    · rfl
    · simp [h]

theorem impurity_zero_on_degenerate_counts_witness :
    ((0 : Nat) = 0 ∨ (0 : Nat) = 0) ∧
      (entropy 0 0 = 0 ∧ variance_impurity 0 0 = 0) :=
  ⟨Or.inl rfl, impurity_zero_on_degenerate_counts 0 0 (Or.inl rfl)⟩

/-! # C10: accuracy on an empty dataset -/

/-- C10: with a rooted tree and an empty dataset, `calculate_accuracy` hits
the unguarded division by the row count and fails with the division-by-zero
error, which is none of the specification's named error kinds. -/
theorem calculate_accuracy_empty_dataset_zero_division (t : BTree)
    (h : t.root ≠ .absent) :
    calculate_accuracy [] t = .error .zeroDivision ∧
      TreeErr.zeroDivision ≠ .invalidState ∧
      TreeErr.zeroDivision ≠ .invalidArgument ∧
      TreeErr.zeroDivision ≠ .emptyTree ∧
      TreeErr.zeroDivision ≠ .missingBranch ∧
      TreeErr.zeroDivision ≠ .invalidLeaf := by
  refine ⟨?_, by decide, by decide, by decide, by decide, by decide⟩
  cases ht : t.root with
  | absent => exact absurd ht h
  | node v j z o l r =>
    unfold calculate_accuracy
    rw [ht]
    rfl

theorem calculate_accuracy_empty_dataset_zero_division_witness :
    (⟨.node (some "0") 0 0 1 .absent .absent, 0⟩ : BTree).root ≠ .absent ∧
      calculate_accuracy [] ⟨.node (some "0") 0 0 1 .absent .absent, 0⟩ =
        .error .zeroDivision :=
  ⟨by decide,
    (calculate_accuracy_empty_dataset_zero_division
      ⟨.node (some "0") 0 0 1 .absent .absent, 0⟩ (by decide)).1⟩

/-! # C7: node-creation error cases -/

/-- C7 counterexample: the claim that node creation succeeds in every case
other than duplicate-root and invalid-branch-value is false — attaching a
child with valid branch value 0 under a parent index that no node carries
fails (with the node-not-found error) instead of succeeding. -/
theorem create_node_other_cases_not_all_ok :
    ¬ (∀ (t : BTree) (parent_idx : Option Nat) (branch_value : Option Int)
        (v : String) (z o : Nat),
        ¬ (parent_idx = none ∧ t.root ≠ .absent) →
        (parent_idx = none ∨ branch_value = some 0 ∨ branch_value = some 1) →
        ∃ r, _create_node t parent_idx branch_value v z o = .ok r) := by
  intro hclaim
  obtain ⟨r, hr⟩ := hclaim ⟨.node (some "A") 0 1 1 .absent .absent, 0⟩
    (some 5) (some 0) "0" 1 0 (by simp) (by simp)
  rw [show _create_node ⟨.node (some "A") 0 1 1 .absent .absent, 0⟩
      (some 5) (some 0) "0" 1 0 = .error .nodeNotFound from rfl] at hr
  exact Except.noConfusion hr

/-- C7 (amended): node creation fails with `InvalidState` exactly on a
second root, with `InvalidArgument` exactly on a non-root branch value
other than 0/1, succeeds in every other case in which the parent index is
carried by a node of the tree, and fails with the node-not-found error when
it is not. -/
theorem create_node_cases (t : BTree) (parent_idx : Option Nat)
    (branch_value : Option Int) (v : String) (z o : Nat) :
    (parent_idx = none → t.root ≠ .absent →
      _create_node t parent_idx branch_value v z o = .error .invalidState) ∧
    (parent_idx = none → t.root = .absent →
      _create_node t parent_idx branch_value v z o =
        .ok (t.counter, ⟨.node (some v) t.counter z o .absent .absent, t.counter⟩)) ∧
    (∀ p, parent_idx = some p → branch_value ≠ some 0 → branch_value ≠ some 1 →
      _create_node t parent_idx branch_value v z o = .error .invalidArgument) ∧
    (∀ p, parent_idx = some p → (branch_value = some 0 ∨ branch_value = some 1) →
      p ∈ t.root.indices →
      ∃ r, _create_node t parent_idx branch_value v z o = .ok r) ∧
    (∀ p, parent_idx = some p → (branch_value = some 0 ∨ branch_value = some 1) →
      p ∉ t.root.indices →
      _create_node t parent_idx branch_value v z o = .error .nodeNotFound) := by
  refine ⟨?_, ?_, ?_, ?_, ?_⟩
  · intro hp hr
    subst hp
    cases ht : t.root with
    | absent => exact absurd ht hr
    | node v2 j2 z2 o2 l2 r2 => simp [_create_node, ht]
  · intro hp hr
    subst hp
    simp [_create_node, add_root, hr]
  · intro p hp h0 h1
    subst hp
    simp only [_create_node, if_neg h0, if_neg h1]
  · intro p hp hbv hmem
    subst hp
    rcases hbv with hbv | hbv
    · simp only [_create_node, if_pos hbv]
      unfold add_left_child
      have hs := (setChildAt_isSome_iff true p
        (.node (some v) (t.counter + 1) z o .absent .absent) t.root).mpr hmem
      obtain ⟨r2, hr2⟩ := Option.isSome_iff_exists.mp hs
      rw [hr2]
      exact ⟨_, rfl⟩
    · have h0 : branch_value ≠ some 0 := by rw [hbv]; simp
      simp only [_create_node, if_neg h0, if_pos hbv]
      unfold add_right_child
      have hs := (setChildAt_isSome_iff false p
        (.node (some v) (t.counter + 1) z o .absent .absent) t.root).mpr hmem
      obtain ⟨r2, hr2⟩ := Option.isSome_iff_exists.mp hs
      rw [hr2]
      exact ⟨_, rfl⟩
  · intro p hp hbv hmem
    subst hp
    rcases hbv with hbv | hbv
    · simp only [_create_node, if_pos hbv]
      unfold add_left_child
      cases hset : OptNode.setChildAt true p
          (.node (some v) (t.counter + 1) z o .absent .absent) t.root with
      | none => rfl
      | some r2 =>
        have := (setChildAt_isSome_iff true p
          (.node (some v) (t.counter + 1) z o .absent .absent) t.root).mp
          (by simp [hset])
        exact absurd this hmem
    · have h0 : branch_value ≠ some 0 := by rw [hbv]; simp
      simp only [_create_node, if_neg h0, if_pos hbv]
      unfold add_right_child
      cases hset : OptNode.setChildAt false p
          (.node (some v) (t.counter + 1) z o .absent .absent) t.root with
      | none => rfl
      | some r2 =>
        have := (setChildAt_isSome_iff false p
          (.node (some v) (t.counter + 1) z o .absent .absent) t.root).mp
          (by simp [hset])
        exact absurd this hmem

theorem create_node_cases_witness :
    ∃ r, _create_node ⟨.node (some "A") 0 1 1 .absent .absent, 0⟩
      (some 0) (some 0) "0" 1 0 = .ok r :=
  (create_node_cases ⟨.node (some "A") 0 1 1 .absent .absent, 0⟩
      (some 0) (some 0) "0" 1 0).2.2.2.1 0 rfl (Or.inl rfl) (by decide)

/-! # C8: traversal agrees with the specification's predict -/

/-- C8: on rows of the data model (every stored value 0 or 1), `traverse`
returns exactly what the specification's description of `predict` demands:
the integer parse of the reached leaf's label, the `MissingBranch` error
when an internal node lacks the required child or the row lacks the node's
attribute, and the `InvalidLeaf` error when a leaf's label is absent. -/
theorem traverse_matches_spec_predict (t : OptNode) (sample : Row)
    (h : rowValues01 sample) : BTree.traverse t sample = predictSpec t sample := by
  induction t with
  | absent => rfl
  | node v j z o l r ihl ihr =>
    rw [BTree.traverse, predictSpec]
    by_cases hlf : l = .absent ∧ r = .absent
    · rw [if_pos hlf, if_pos hlf]
    · rw [if_neg hlf, if_neg hlf]
      cases hv : lookupAttr sample v with
      | none => rfl
      | some b =>
        simp only [Option.elim]
        have hb : b = 0 ∨ b = 1 := by
          cases v with
          | none => exact absurd hv (by simp [lookupAttr])
          | some a =>
            simp only [lookupAttr] at hv
            exact h _ (lookup_mem sample a b hv)
        by_cases hb0 : b = 0
        · rw [if_pos hb0, if_pos hb0]
          by_cases hla : l = .absent
          · rw [if_pos hla, if_pos hla]
          · rw [if_neg hla, if_neg hla]
            exact ihl
        · have hb1 : b = 1 := by
            rcases hb with h2 | h2
            · exact absurd h2 hb0
            · exact h2
          rw [if_neg hb0, if_neg hb0, if_pos hb1]
          by_cases hra : r = .absent
          · rw [if_pos hra, if_pos hra]
          · rw [if_neg hra, if_neg hra]
            exact ihr

theorem traverse_matches_spec_predict_witness :
    rowValues01 [("A", 1)] ∧
      BTree.traverse (.node (some "A") 0 1 1 (.node (some "0") 1 1 0 .absent .absent)
          (.node (some "1") 2 0 1 .absent .absent)) [("A", 1)] =
        predictSpec (.node (some "A") 0 1 1 (.node (some "0") 1 1 0 .absent .absent)
          (.node (some "1") 2 0 1 .absent .absent)) [("A", 1)] :=
  ⟨by decide, traverse_matches_spec_predict _ [("A", 1)] (by decide)⟩

/-! # C4 and C5: the gain argmax -/

theorem le_foldl_max : ∀ (xs : List ℝ) (a : ℝ), a ≤ xs.foldl max a := by
  intro xs
  induction xs with
  | nil => intro a; exact le_refl a
  | cons x xs ih =>
    intro a
    calc a ≤ max a x := le_max_left a x
    _ ≤ xs.foldl max (max a x) := ih (max a x)

theorem mem_le_foldl_max : ∀ (xs : List ℝ) (a : ℝ) (x : ℝ), x ∈ xs →
    x ≤ xs.foldl max a := by
  intro xs
  induction xs with
  | nil => intro a x hx; cases hx
  | cons y ys ih =>
    intro a x hx
    rcases List.mem_cons.mp hx with h | h
    · subst h
      calc x ≤ max a x := le_max_right a x
      _ ≤ ys.foldl max (max a x) := le_foldl_max ys (max a x)
    · exact ih (max a y) x h

theorem foldl_max_mem : ∀ (xs : List ℝ) (a : ℝ),
    xs.foldl max a = a ∨ xs.foldl max a ∈ xs := by
  intro xs
  induction xs with
  | nil => intro a; exact Or.inl rfl
  | cons y ys ih =>
    intro a
    rcases ih (max a y) with h | h
    · rcases max_choice a y with hm | hm
      · rw [List.foldl_cons, h, hm]
        exact Or.inl rfl
      · rw [List.foldl_cons, h, hm]
        exact Or.inr (List.mem_cons_self y ys)
    · exact Or.inr (List.mem_cons_of_mem y h)

theorem le_listMax (l : List ℝ) (x : ℝ) (hx : x ∈ l) : x ≤ listMax l := by
  cases l with
  | nil => cases hx
  | cons y ys =>
    rcases List.mem_cons.mp hx with h | h
    · subst h
      exact le_foldl_max ys x
    · exact mem_le_foldl_max ys y x h

theorem listMax_mem (l : List ℝ) (h : l ≠ []) : listMax l ∈ l := by
  cases l with
  | nil => exact absurd rfl h
  | cons y ys =>
    rcases foldl_max_mem ys y with h2 | h2
    · rw [listMax, h2]
      exact List.mem_cons_self y ys
    · exact List.mem_cons_of_mem y h2

theorem firstMaxIdx_lt (l : List ℝ) (h : l ≠ []) : firstMaxIdx l < l.length := by
  apply List.findIdx_lt_length_of_exists
  exact ⟨listMax l, listMax_mem l h, by simp⟩

theorem getElem_firstMaxIdx (l : List ℝ) (h : l ≠ []) :
    l.get ⟨firstMaxIdx l, firstMaxIdx_lt l h⟩ = listMax l := by
  have h1 := List.findIdx_getElem (w := firstMaxIdx_lt l h)
  have h2 : listMax l ≤ l.get ⟨firstMaxIdx l, firstMaxIdx_lt l h⟩ :=
    of_decide_eq_true h1
  have h3 : l.get ⟨firstMaxIdx l, firstMaxIdx_lt l h⟩ ≤ listMax l :=
    le_listMax l _ (List.get_mem l _ _)
  exact le_antisymm h3 h2

theorem lt_of_before_firstMaxIdx (l : List ℝ) (h : l ≠ []) (j : Nat)
    (hj : j < l.length) (hji : j < firstMaxIdx l) :
    l.get ⟨j, hj⟩ < listMax l := by
  have h1 := List.not_of_lt_findIdx hji
  have h2 : ¬ listMax l ≤ l[j] := of_decide_eq_false h1
  have h3 : l[j] = l.get ⟨j, hj⟩ := rfl
  rw [h3] at h2
  exact lt_of_not_le h2

/-- C4: on a non-empty dataset whose rows carry every candidate attribute,
`best_attribute` returns the candidate of maximal gain, the earliest one on
ties, and the result is an element of the candidate list. -/
theorem best_attribute_argmax (imp : Nat → Nat → ℝ) (total_impurity : ℝ)
    (dataset : List Row) (attributes : List String)
    (hds : dataset ≠ []) (hat : attributes ≠ [])
    (hwf : ∀ r ∈ dataset, ∀ a ∈ attributes, (r.lookup a).isSome) :
    ∃ i : Nat, ∃ hi : i < attributes.length,
      best_attribute imp total_impurity dataset attributes =
        .ok (attributes.get ⟨i, hi⟩) ∧
      attributes.get ⟨i, hi⟩ ∈ attributes ∧
      (∀ j, (hj : j < attributes.length) →
        gain imp total_impurity dataset (attributes.get ⟨j, hj⟩) ≤
          gain imp total_impurity dataset (attributes.get ⟨i, hi⟩)) ∧
      (∀ j, (hj : j < attributes.length) → j < i →
        gain imp total_impurity dataset (attributes.get ⟨j, hj⟩) <
          gain imp total_impurity dataset (attributes.get ⟨i, hi⟩)) := by
  clear hwf
  cases attributes with
  | nil => exact absurd rfl hat
  | cons a rest =>
    have hlen : dataset.length ≠ 0 := fun h0 => hds (List.length_eq_zero.mp h0)
    set gains := (a :: rest).map (gain imp total_impurity dataset) with hgains
    have hgne : gains ≠ [] := by simp [hgains]
    have hglen : gains.length = (a :: rest).length := List.length_map _ _
    have hi0 : firstMaxIdx gains < gains.length := firstMaxIdx_lt gains hgne
    have hi : firstMaxIdx gains < (a :: rest).length := by
      rw [← hglen]
      exact hi0
    have hgetg : ∀ (j : Nat) (hj : j < (a :: rest).length),
        gains.get ⟨j, by rw [hglen]; exact hj⟩ =
          gain imp total_impurity dataset ((a :: rest).get ⟨j, hj⟩) := by
      intro j hj
      simp only [List.get_eq_getElem]
      exact List.getElem_map _
    have hmaxA : gain imp total_impurity dataset ((a :: rest).get ⟨firstMaxIdx gains, hi⟩) =
        listMax gains := by
      rw [← hgetg (firstMaxIdx gains) hi]
      exact getElem_firstMaxIdx gains hgne
    refine ⟨firstMaxIdx gains, hi, ?_, List.get_mem _ _ _, ?_, ?_⟩
    · simp only [best_attribute]
      rw [if_neg hlen]
      congr 1
      rw [List.getD_eq_getElem?_getD, List.getElem?_eq_getElem hi]
      rfl
    · intro j hj
      have h1 := le_listMax gains (gains.get ⟨j, by rw [hglen]; exact hj⟩)
        (List.get_mem _ _ _)
      rw [hgetg j hj] at h1
      rw [hmaxA]
      exact h1
    · intro j hj hji
      have h1 := lt_of_before_firstMaxIdx gains hgne j
        (by rw [hglen]; exact hj) hji
      rw [hgetg j hj] at h1
      rw [hmaxA]
      exact h1

theorem best_attribute_argmax_witness :
    ([[("A", (0 : Int)), ("Class", 0)]] : List Row) ≠ [] ∧
      (["A"] : List String) ≠ [] ∧
      (∀ r ∈ ([[("A", (0 : Int)), ("Class", 0)]] : List Row),
        ∀ a ∈ (["A"] : List String), (r.lookup a).isSome) ∧
      ∃ i : Nat, ∃ hi : i < (["A"] : List String).length,
        best_attribute (fun _ _ => (0 : ℝ)) 0 [[("A", (0 : Int)), ("Class", 0)]]
          ["A"] = .ok ((["A"] : List String).get ⟨i, hi⟩) :=
  ⟨by decide, by decide, by decide, by
    obtain ⟨i, hi, h1, _⟩ := best_attribute_argmax (fun _ _ => (0 : ℝ)) 0
      [[("A", (0 : Int)), ("Class", 0)]] ["A"] (by decide) (by decide) (by decide)
    exact ⟨i, hi, h1⟩⟩

theorem countClass_perm (d1 d2 : List Row) (hp : d1.Perm d2) (v : Int) :
    countClass d1 v = countClass d2 v :=
  (hp.filter _).length_eq

theorem subsetOf_perm (d1 d2 : List Row) (hp : d1.Perm d2) (a : String) (v : Int) :
    (subsetOf d1 a v).Perm (subsetOf d2 a v) :=
  hp.filter _

theorem gain_perm (imp : Nat → Nat → ℝ) (ti : ℝ) (d1 d2 : List Row)
    (hp : d1.Perm d2) (a : String) : gain imp ti d1 a = gain imp ti d2 a := by
  unfold gain subtotalFor
  rw [countClass_perm _ _ (subsetOf_perm d1 d2 hp a 0) 0,
      countClass_perm _ _ (subsetOf_perm d1 d2 hp a 0) 1,
      countClass_perm _ _ (subsetOf_perm d1 d2 hp a 1) 0,
      countClass_perm _ _ (subsetOf_perm d1 d2 hp a 1) 1,
      hp.length_eq]

/-- C5: `best_attribute` is invariant under any permutation of the dataset's
rows — partition sizes, class counts and hence every gain are permutation
invariants, so the argmax selection is unchanged. -/
theorem best_attribute_perm_invariant (imp : Nat → Nat → ℝ) (ti : ℝ)
    (d1 d2 : List Row) (attributes : List String)
    (hat : attributes ≠ []) (hp : d1.Perm d2) :
    best_attribute imp ti d1 attributes = best_attribute imp ti d2 attributes := by
  clear hat
  cases attributes with
  | nil => rfl
  | cons a rest =>
    simp only [best_attribute]
    have hg : (a :: rest).map (gain imp ti d1) = (a :: rest).map (gain imp ti d2) :=
      List.map_congr_left (fun x _ => gain_perm imp ti d1 d2 hp x)
    rw [hg, hp.length_eq]

theorem best_attribute_perm_invariant_witness :
    (["A"] : List String) ≠ [] ∧
      ([[("A", (0 : Int)), ("Class", 0)], [("A", (1 : Int)), ("Class", 1)]] : List Row).Perm
        [[("A", (1 : Int)), ("Class", 1)], [("A", (0 : Int)), ("Class", 0)]] ∧
      best_attribute (fun _ _ => (0 : ℝ)) 0
          [[("A", (0 : Int)), ("Class", 0)], [("A", (1 : Int)), ("Class", 1)]] ["A"] =
        best_attribute (fun _ _ => (0 : ℝ)) 0
          [[("A", (1 : Int)), ("Class", 1)], [("A", (0 : Int)), ("Class", 0)]] ["A"] :=
  ⟨by decide, List.Perm.swap _ _ [],
    best_attribute_perm_invariant (fun _ _ => (0 : ℝ)) 0 _ _ ["A"] (by decide)
      (List.Perm.swap _ _ [])⟩

/-! # C1: pruning never decreases validation accuracy -/

theorem collapseAt_ne_absent (t : OptNode) (ht : t ≠ .absent) (n : Nat) :
    t.collapseAt n ≠ .absent := by
  cases t with
  | absent => exact absurd rfl ht
  | node v j z o l r =>
    rw [OptNode.collapseAt]
    split
    · exact fun h => OptNode.noConfusion h
    · split
      · exact fun h => OptNode.noConfusion h
      · split
        · exact fun h => OptNode.noConfusion h
        · exact fun h => OptNode.noConfusion h

theorem traverse_ok_collapseAt (t : OptNode) :
    ∀ (n : Nat) (sample : Row) (v : Int), BTree.traverse t sample = .ok v →
      ∃ w, BTree.traverse (t.collapseAt n) sample = .ok w := by
  induction t with
  | absent => intro n sample v h; exact absurd h (by rw [BTree.traverse]; simp)
  | node vl j z o l r ihl ihr =>
    intro n sample v h
    rw [OptNode.collapseAt]
    by_cases hlf : l = .absent ∧ r = .absent
    · rw [if_pos hlf]
      exact ⟨v, h⟩
    · rw [if_neg hlf]
      by_cases hn : n = 0
      · rw [if_pos hn]
        by_cases hzo : z ≤ o
        · refine ⟨1, ?_⟩
          rw [if_pos hzo, BTree.traverse]
          rw [if_pos ⟨rfl, rfl⟩]
          decide
        · refine ⟨0, ?_⟩
          rw [if_neg hzo, BTree.traverse]
          rw [if_pos ⟨rfl, rfl⟩]
          decide
      · rw [if_neg hn]
        rw [BTree.traverse, if_neg hlf] at h
        cases hv : lookupAttr sample vl with
        | none =>
          rw [hv] at h
          exact absurd h (by simp [Option.elim])
        | some b =>
          rw [hv] at h
          simp only [Option.elim] at h
          by_cases hb0 : b = 0
          · rw [if_pos hb0] at h
            by_cases hla : l = .absent
            · rw [if_pos hla] at h
              exact absurd h (by simp)
            · rw [if_neg hla] at h
              obtain ⟨w, hw⟩ := ihl (n - 1) sample v h
              by_cases hcl : n - 1 < (OptNode.nonLeaves l).length
              · rw [if_pos hcl]
                refine ⟨w, ?_⟩
                rw [BTree.traverse]
                have hnl : ¬ (l.collapseAt (n - 1) = .absent ∧ r = .absent) := by
                  intro hc
                  exact collapseAt_ne_absent l hla (n - 1) hc.1
                rw [if_neg hnl, hv]
                simp only [Option.elim]
                rw [if_pos hb0, if_neg (collapseAt_ne_absent l hla (n - 1))]
                exact hw
              · rw [if_neg hcl]
                refine ⟨v, ?_⟩
                rw [BTree.traverse]
                have hnl : ¬ (l = .absent ∧ r.collapseAt (n - 1 - (OptNode.nonLeaves l).length) = .absent) := by
                  intro hc
                  exact hla hc.1
                rw [if_neg hnl, hv]
                simp only [Option.elim]
                rw [if_pos hb0, if_neg hla]
                exact h
          · rw [if_neg hb0] at h
            by_cases hra : r = .absent
            · rw [if_pos hra] at h
              exact absurd h (by simp)
            · rw [if_neg hra] at h
              by_cases hcl : n - 1 < (OptNode.nonLeaves l).length
              · rw [if_pos hcl]
                refine ⟨v, ?_⟩
                rw [BTree.traverse]
                have hnl : ¬ (l.collapseAt (n - 1) = .absent ∧ r = .absent) := by
                  intro hc
                  exact hra hc.2
                rw [if_neg hnl, hv]
                simp only [Option.elim]
                rw [if_neg hb0, if_neg hra]
                exact h
              · rw [if_neg hcl]
                obtain ⟨w, hw⟩ := ihr (n - 1 - (OptNode.nonLeaves l).length) sample v h
                refine ⟨w, ?_⟩
                rw [BTree.traverse]
                have hnl : ¬ (l = .absent ∧ r.collapseAt (n - 1 - (OptNode.nonLeaves l).length) = .absent) := by
                  intro hc
                  exact collapseAt_ne_absent r hra _ hc.2
                rw [if_neg hnl, hv]
                simp only [Option.elim]
                rw [if_neg hb0, if_neg (collapseAt_ne_absent r hra _)]
                exact hw

theorem pruneSteps_ne_absent (pick : Nat → Nat) :
    ∀ (steps j : Nat) (t : OptNode), t ≠ .absent →
      pruneSteps pick j steps t ≠ .absent := by
  intro steps
  induction steps with
  | zero => intro j t ht; exact ht
  | succ n ih =>
    intro j t ht
    rw [pruneSteps]
    by_cases hnl : t.nonLeaves = []
    · rw [if_pos hnl]
      exact ht
    · rw [if_neg hnl]
      exact ih (j + 1) _ (collapseAt_ne_absent t ht _)

theorem traverse_ok_pruneSteps (pick : Nat → Nat) :
    ∀ (steps j : Nat) (t : OptNode) (sample : Row) (v : Int),
      BTree.traverse t sample = .ok v →
      ∃ w, BTree.traverse (pruneSteps pick j steps t) sample = .ok w := by
  intro steps
  induction steps with
  | zero => intro j t s v h; exact ⟨v, h⟩
  | succ n ih =>
    intro j t s v h
    rw [pruneSteps]
    by_cases hnl : t.nonLeaves = []
    · rw [if_pos hnl]
      exact ⟨v, h⟩
    · rw [if_neg hnl]
      obtain ⟨w, hw⟩ := traverse_ok_collapseAt t (pick j % t.nonLeaves.length) s v h
      exact ih (j + 1) _ s w hw

theorem accRows_ok_transfer (root1 root2 : OptNode)
    (hT : ∀ s v, BTree.traverse root1 s = .ok v →
      ∃ w, BTree.traverse root2 s = .ok w) :
    ∀ (ds : List Row) (m : Nat), accRows root1 ds = .ok m →
      ∃ m2, accRows root2 ds = .ok m2 := by
  intro ds
  induction ds with
  | nil => intro m h; exact ⟨0, rfl⟩
  | cons r rest ih =>
    intro m h
    rw [accRows] at h ⊢
    cases ht : BTree.traverse root1 (dropClass r) with
    | error e => rw [ht] at h; simp at h
    | ok pred =>
      rw [ht] at h
      obtain ⟨w, hw⟩ := hT _ _ ht
      rw [hw]
      cases hc : r.lookup TARGET_COLUMN with
      | none => rw [hc] at h; simp at h
      | some cls =>
        rw [hc] at h
        cases hm : accRows root1 rest with
        | error e => rw [hm] at h; simp at h
        | ok m1 =>
          obtain ⟨m2, hm2⟩ := ih m1 hm
          rw [hm2]
          exact ⟨_, rfl⟩

theorem calculate_accuracy_ok_inv (ds : List Row) (t : BTree) (a : ℚ)
    (h : calculate_accuracy ds t = .ok a) :
    t.root ≠ .absent ∧ ds.length ≠ 0 ∧
      ∃ m, accRows t.root ds = .ok m ∧ a = (m : ℚ) / (ds.length : ℚ) * 100 := by
  obtain ⟨rt, ct⟩ := t
  simp only [calculate_accuracy] at h
  split at h
  · exact absurd h (by simp)
  · next v j z o l r =>
    split at h
    · exact absurd h (by simp)
    · next m hm =>
      split at h
      · exact absurd h (by simp)
      · next hl =>
        injection h with h
        exact ⟨fun hc => OptNode.noConfusion hc, hl, m, hm, h.symm⟩

theorem calculate_accuracy_transfer (ds : List Row) (t1 t2 : BTree) (a : ℚ)
    (h1 : calculate_accuracy ds t1 = .ok a)
    (hroot : t2.root ≠ .absent)
    (hT : ∀ s v, BTree.traverse t1.root s = .ok v →
      ∃ w, BTree.traverse t2.root s = .ok w) :
    ∃ a2, calculate_accuracy ds t2 = .ok a2 := by
  obtain ⟨hr1, hl, m, hm, ha⟩ := calculate_accuracy_ok_inv ds t1 a h1
  obtain ⟨m2, hm2⟩ := accRows_ok_transfer t1.root t2.root hT ds m hm
  obtain ⟨rt2, ct2⟩ := t2
  cases rt2 with
  | absent => exact absurd rfl hroot
  | node v j z o l r =>
    refine ⟨(m2 : ℚ) / (ds.length : ℚ) * 100, ?_⟩
    simp only [calculate_accuracy]
    rw [hm2]
    simp [hl]

theorem pruneTrials_mono (validation : List Row) (base : BTree) (kEff : Nat)
    (cnt : Nat → Nat) (pick : Nat → Nat → Nat) (a0 : ℚ)
    (hbase : calculate_accuracy validation base = .ok a0) :
    ∀ (n : Nat) (best : BTree) (score : ℚ),
      calculate_accuracy validation best = .ok score → a0 ≤ score →
      ∃ best2 score2,
        pruneTrials validation base kEff cnt pick n best score =
          .ok (best2, score2) ∧
        calculate_accuracy validation best2 = .ok score2 ∧ a0 ≤ score2 := by
  intro n
  induction n with
  | zero => intro best score h1 h2; exact ⟨best, score, rfl, h1, h2⟩
  | succ n ih =>
    intro best score h1 h2
    have hr0 : base.root ≠ .absent := (calculate_accuracy_ok_inv _ _ _ hbase).1
    have hroot2 : (⟨pruneSteps (pick n) 0 (Nat.max (1 + cnt n % kEff) 1) base.root,
        base.counter⟩ : BTree).root ≠ .absent :=
      pruneSteps_ne_absent (pick n) _ 0 base.root hr0
    obtain ⟨a2, ha2⟩ := calculate_accuracy_transfer validation base
      ⟨pruneSteps (pick n) 0 (Nat.max (1 + cnt n % kEff) 1) base.root, base.counter⟩
      a0 hbase hroot2
      (fun s v hv => traverse_ok_pruneSteps (pick n) _ 0 base.root s v hv)
    rw [pruneTrials]
    split
    · next e heq =>
      rw [ha2] at heq
      exact absurd heq (by simp)
    · rename_i aa heq
      rw [ha2] at heq
      injection heq with heq
      subst heq
      by_cases hlt : score < a2
      · rw [if_pos hlt]
        exact ih _ a2 ha2 (le_trans h2 (le_of_lt hlt))
      · rw [if_neg hlt]
        exact ih best score h1 h2

/-- C1: whenever the validation accuracy of the base tree is defined, the
tree returned by `post_pruning` has validation accuracy at least that of
the unpruned base tree, for every outcome of the random choices. -/
theorem prune_accuracy_monotone (l k : Int) (validation : List Row)
    (base_tree : BTree) (cnt : Nat → Nat) (pick : Nat → Nat → Nat) (a : ℚ)
    (hval : validation ≠ [])
    (hacc : calculate_accuracy validation base_tree = .ok a) :
    ∃ best a2, post_pruning l k validation base_tree cnt pick = .ok best ∧
      calculate_accuracy validation best = .ok a2 ∧ a ≤ a2 := by
  clear hval
  obtain ⟨b2, s2, h1, h2, h3⟩ := pruneTrials_mono validation base_tree
    (max k 1).toNat cnt pick a hacc (max l 1).toNat base_tree a hacc (le_refl a)
  refine ⟨b2, s2, ?_, h2, h3⟩
  rw [post_pruning]
  split
  · next e heq =>
    rw [hacc] at heq
    exact absurd heq (by simp)
  · next cb heq =>
    rw [hacc] at heq
    injection heq with heq
    subst heq
    rw [h1]

theorem prune_accuracy_monotone_witness :
    ([[("A", (0 : Int)), ("Class", 0)]] : List Row) ≠ [] ∧
      calculate_accuracy [[("A", (0 : Int)), ("Class", 0)]]
        ⟨.node (some "0") 0 1 0 .absent .absent, 0⟩ = .ok 100 ∧
      ∃ best a2, post_pruning 2 2 [[("A", (0 : Int)), ("Class", 0)]]
          ⟨.node (some "0") 0 1 0 .absent .absent, 0⟩ (fun _ => 0) (fun _ _ => 0) =
            .ok best ∧
        calculate_accuracy [[("A", (0 : Int)), ("Class", 0)]] best = .ok a2 ∧
        (100 : ℚ) ≤ a2 := by
  have hacc : calculate_accuracy [[("A", (0 : Int)), ("Class", 0)]]
      ⟨.node (some "0") 0 1 0 .absent .absent, 0⟩ = .ok 100 := by
    simp only [calculate_accuracy]
    rw [show accRows (.node (some "0") 0 1 0 .absent .absent)
        [[("A", (0 : Int)), ("Class", 0)]] = .ok 1 from by decide]
    norm_num
  exact ⟨by decide, hacc,
    prune_accuracy_monotone 2 2 _ _ (fun _ => 0) (fun _ _ => 0) 100 (by decide) hacc⟩

/-! # C2 and C3: the constructed tree -/

theorem getChildSlot_isSome_iff (s : Bool) (i : Nat) :
    ∀ t : OptNode, (OptNode.getChildSlot s i t).isSome ↔ i ∈ t.indices := by
  intro t
  induction t with
  | absent => simp [OptNode.getChildSlot, OptNode.indices]
  | node v j z o l r ihl ihr =>
    simp only [OptNode.getChildSlot, OptNode.indices, List.mem_cons, List.mem_append]
    by_cases hj : j = i
    · simp [hj]
    · have hne : ¬ i = j := fun h2 => hj h2.symm
      rw [if_neg hj]
      cases hl : OptNode.getChildSlot s i l with
      | some c =>
        have hml : i ∈ l.indices := ihl.mp (by simp [hl])
        simp [hne, hml]
      | none =>
        have hnl : i ∉ l.indices := fun hm => by
          have := ihl.mpr hm
          rw [hl] at this
          exact absurd this (by simp)
        cases hr : OptNode.getChildSlot s i r with
        | some c =>
          have hmr : i ∈ r.indices := ihr.mp (by simp [hr])
          simp [hne, hnl, hmr, hr]
        | none =>
          have hnr : i ∉ r.indices := fun hm => by
            have := ihr.mpr hm
            rw [hr] at this
            exact absurd this (by simp)
          simp [hne, hnl, hnr, hr]

theorem setChildAt_none_of_not_mem (s : Bool) (i : Nat) (c : OptNode)
    (t : OptNode) (h : i ∉ t.indices) : OptNode.setChildAt s i c t = none := by
  cases hset : OptNode.setChildAt s i c t with
  | none => rfl
  | some r =>
    exact absurd ((setChildAt_isSome_iff s i c t).mp (by simp [hset])) h

theorem getChildSlot_none_of_not_mem (s : Bool) (i : Nat)
    (t : OptNode) (h : i ∉ t.indices) : OptNode.getChildSlot s i t = none := by
  cases hget : OptNode.getChildSlot s i t with
  | none => rfl
  | some r =>
    exact absurd ((getChildSlot_isSome_iff s i t).mp (by simp [hget])) h

theorem indices_setChildAt_perm (s : Bool) (p : Nat) (c : OptNode) :
    ∀ (t r : OptNode), OptNode.setChildAt s p c t = some r →
      OptNode.getChildSlot s p t = some .absent →
      r.indices.Perm (t.indices ++ c.indices) := by
  intro t
  induction t with
  | absent =>
    intro r hset hslot
    simp [OptNode.setChildAt] at hset
  | node v j z o l rr ihl ihr =>
    intro r hset hslot
    rw [OptNode.setChildAt] at hset
    rw [OptNode.getChildSlot] at hslot
    by_cases hj : j = p
    · rw [if_pos hj] at hset hslot
      injection hset with hset
      injection hslot with hslot
      by_cases hs : s = true
      · rw [if_pos hs] at hset hslot
        subst hslot
        subst hset
        simp only [OptNode.indices, List.append_nil, List.nil_append]
        refine List.Perm.cons j ?_
        exact List.perm_append_comm
      · rw [if_neg hs] at hset hslot
        subst hslot
        subst hset
        simp only [OptNode.indices, List.append_nil, List.nil_append]
        refine List.Perm.cons j ?_
        exact List.Perm.refl _
    · rw [if_neg hj] at hset hslot
      cases hl : OptNode.setChildAt s p c l with
      | some l2 =>
        rw [hl] at hset
        simp only [Option.some.injEq] at hset
        have hmem : p ∈ l.indices := (setChildAt_isSome_iff s p c l).mp (by simp [hl])
        cases hgl : OptNode.getChildSlot s p l with
        | none =>
          exact absurd ((getChildSlot_isSome_iff s p l).mpr hmem) (by simp [hgl])
        | some slotL =>
          rw [hgl] at hslot
          simp only [Option.some.injEq] at hslot
          subst hslot
          subst hset
          simp only [OptNode.indices]
          refine List.Perm.cons j ?_
          have h1 : List.Perm (l2.indices ++ rr.indices)
              ((l.indices ++ c.indices) ++ rr.indices) :=
            List.Perm.append_right rr.indices (ihl l2 hl hgl)
          have h2 : List.Perm ((l.indices ++ c.indices) ++ rr.indices)
              ((l.indices ++ rr.indices) ++ c.indices) := by
            rw [List.append_assoc, List.append_assoc]
            exact List.Perm.append_left _ List.perm_append_comm
          exact h1.trans h2
      | none =>
        rw [hl] at hset
        have hnl : p ∉ l.indices := fun hm => by
          have := (setChildAt_isSome_iff s p c l).mpr hm
          rw [hl] at this
          exact absurd this (by simp)
        rw [getChildSlot_none_of_not_mem s p l hnl] at hslot
        cases hr2 : OptNode.setChildAt s p c rr with
        | none =>
          rw [hr2] at hset
          exact absurd hset (by simp)
        | some rr2 =>
          rw [hr2] at hset
          simp only [Option.some.injEq] at hset
          subst hset
          simp only [OptNode.indices]
          refine List.Perm.cons j ?_
          have h1 : List.Perm (l.indices ++ rr2.indices)
              (l.indices ++ (rr.indices ++ c.indices)) :=
            List.Perm.append_left _ (ihr rr2 hr2 hslot)
          show (l.indices ++ rr2.indices).Perm ((l.indices ++ rr.indices) ++ c.indices)
          rw [List.append_assoc]
          exact h1

theorem not_mem_node_parts {i j : Nat} {v : Option String} {z o : Nat}
    {l r : OptNode} (h : i ∉ (OptNode.node v j z o l r).indices) :
    i ≠ j ∧ i ∉ l.indices ∧ i ∉ r.indices := by
  rw [OptNode.indices] at h
  refine ⟨?_, ?_, ?_⟩
  · intro he
    exact h (he ▸ List.mem_cons_self _ _)
  · intro hm
    exact h (List.mem_cons_of_mem _ (List.mem_append.mpr (Or.inl hm)))
  · intro hm
    exact h (List.mem_cons_of_mem _ (List.mem_append.mpr (Or.inr hm)))

theorem setChildAt_nest (s s2 : Bool) (p i : Nat) (c x : OptNode) :
    ∀ (t r c2 : OptNode), OptNode.setChildAt s p c t = some r →
      i ∉ t.indices → OptNode.setChildAt s2 i x c = some c2 →
      ∃ r2, OptNode.setChildAt s2 i x r = some r2 ∧
        OptNode.setChildAt s p c2 t = some r2 := by
  intro t
  induction t with
  | absent =>
    intro r c2 h1 h2 h3
    simp [OptNode.setChildAt] at h1
  | node v j z o l rr ihl ihr =>
    intro r c2 h1 h2 h3
    obtain ⟨hij, hil, hir⟩ := not_mem_node_parts h2
    rw [OptNode.setChildAt] at h1
    by_cases hj : j = p
    · rw [if_pos hj] at h1
      injection h1 with h1
      have hji : ¬ j = i := fun he => hij he.symm
      by_cases hs : s = true
      · rw [if_pos hs] at h1
        subst h1
        refine ⟨.node v j z o c2 rr, ?_, ?_⟩
        · rw [OptNode.setChildAt, if_neg hji, h3]
        · rw [OptNode.setChildAt, if_pos hj, if_pos hs]
      · rw [if_neg hs] at h1
        subst h1
        refine ⟨.node v j z o l c2, ?_, ?_⟩
        · rw [OptNode.setChildAt, if_neg hji,
            setChildAt_none_of_not_mem s2 i x l hil, h3]
        · rw [OptNode.setChildAt, if_pos hj, if_neg hs]
    · rw [if_neg hj] at h1
      have hji : ¬ j = i := fun he => hij he.symm
      cases hl : OptNode.setChildAt s p c l with
      | some l2 =>
        rw [hl] at h1
        simp only [Option.some.injEq] at h1
        subst h1
        obtain ⟨l3, hA, hB⟩ := ihl l2 c2 hl hil h3
        refine ⟨.node v j z o l3 rr, ?_, ?_⟩
        · rw [OptNode.setChildAt, if_neg hji, hA]
        · rw [OptNode.setChildAt, if_neg hj, hB]
      | none =>
        rw [hl] at h1
        cases hr2 : OptNode.setChildAt s p c rr with
        | none =>
          rw [hr2] at h1
          exact absurd h1 (by simp)
        | some rr2 =>
          rw [hr2] at h1
          simp only [Option.some.injEq] at h1
          subst h1
          obtain ⟨rr3, hA, hB⟩ := ihr rr2 c2 hr2 hir h3
          have hpl : p ∉ l.indices := fun hm => by
            have := (setChildAt_isSome_iff s p c l).mpr hm
            rw [hl] at this
            exact absurd this (by simp)
          refine ⟨.node v j z o l rr3, ?_, ?_⟩
          · rw [OptNode.setChildAt, if_neg hji,
              setChildAt_none_of_not_mem s2 i x l hil, hA]
          · rw [OptNode.setChildAt, if_neg hj,
              setChildAt_none_of_not_mem s p c2 l hpl, hB]

theorem getChildSlot_setChildAt_not_mem (s s2 : Bool) (p i : Nat) (c : OptNode) :
    ∀ (t r : OptNode), OptNode.setChildAt s p c t = some r →
      i ∉ t.indices →
      OptNode.getChildSlot s2 i r = OptNode.getChildSlot s2 i c := by
  intro t
  induction t with
  | absent =>
    intro r h1 h2
    simp [OptNode.setChildAt] at h1
  | node v j z o l rr ihl ihr =>
    intro r h1 h2
    obtain ⟨hij, hil, hir⟩ := not_mem_node_parts h2
    have hji : ¬ j = i := fun he => hij he.symm
    rw [OptNode.setChildAt] at h1
    by_cases hj : j = p
    · rw [if_pos hj] at h1
      injection h1 with h1
      by_cases hs : s = true
      · rw [if_pos hs] at h1
        subst h1
        rw [OptNode.getChildSlot, if_neg hji]
        cases hc : OptNode.getChildSlot s2 i c with
        | some c3 => rfl
        | none => exact getChildSlot_none_of_not_mem s2 i rr hir
      · rw [if_neg hs] at h1
        subst h1
        rw [OptNode.getChildSlot, if_neg hji,
          getChildSlot_none_of_not_mem s2 i l hil]
    · rw [if_neg hj] at h1
      cases hl : OptNode.setChildAt s p c l with
      | some l2 =>
        rw [hl] at h1
        simp only [Option.some.injEq] at h1
        subst h1
        rw [OptNode.getChildSlot, if_neg hji, ihl l2 hl hil]
        cases hc : OptNode.getChildSlot s2 i c with
        | some c3 => rfl
        | none => exact getChildSlot_none_of_not_mem s2 i rr hir
      | none =>
        rw [hl] at h1
        cases hr2 : OptNode.setChildAt s p c rr with
        | none =>
          rw [hr2] at h1
          exact absurd h1 (by simp)
        | some rr2 =>
          rw [hr2] at h1
          simp only [Option.some.injEq] at h1
          subst h1
          rw [OptNode.getChildSlot, if_neg hji,
            getChildSlot_none_of_not_mem s2 i l hil, ihr rr2 hr2 hir]

theorem internalLabelsIn_mono (attrs attrs2 : List String)
    (hsub : ∀ a ∈ attrs, a ∈ attrs2) :
    ∀ t : OptNode, internalLabelsIn attrs t = true →
      internalLabelsIn attrs2 t = true := by
  intro t
  induction t with
  | absent => intro _; rfl
  | node v j z o l r ihl ihr =>
    intro h
    rw [internalLabelsIn] at h ⊢
    by_cases hlf : l = .absent ∧ r = .absent
    · rw [if_pos hlf]
    · rw [if_neg hlf] at h ⊢
      simp only [Bool.and_eq_true] at h ⊢
      obtain ⟨⟨hm, hl2⟩, hr2⟩ := h
      refine ⟨⟨?_, ihl hl2⟩, ihr hr2⟩
      cases v with
      | none => exact absurd hm (by simp [Option.elim])
      | some a =>
        simp only [Option.elim, decide_eq_true_eq] at hm ⊢
        exact hsub a hm

theorem traverse_ok_of_wellformed (attrs : List String) (row : Row)
    (hrow : ∀ a ∈ attrs, ∃ v, row.lookup a = some v) :
    ∀ t : OptNode, t ≠ .absent → strictBinaryB t = true →
      leavesLabeled01 t = true → internalLabelsIn attrs t = true →
      ∃ v, BTree.traverse t row = .ok v := by
  intro t
  induction t with
  | absent => intro h; exact absurd rfl h
  | node v j z o l r ihl ihr =>
    intro _ hsb hll hil
    rw [BTree.traverse]
    by_cases hlf : l = .absent ∧ r = .absent
    · rw [if_pos hlf]
      rw [leavesLabeled01, if_pos hlf] at hll
      have hv : v = some "0" ∨ v = some "1" := of_decide_eq_true hll
      rcases hv with hv | hv
      · subst hv
        exact ⟨0, by decide⟩
      · subst hv
        exact ⟨1, by decide⟩
    · rw [if_neg hlf]
      rw [strictBinaryB] at hsb
      simp only [Bool.and_eq_true, Bool.or_eq_true, decide_eq_true_eq] at hsb
      obtain ⟨⟨hlr, hsbl⟩, hsbr⟩ := hsb
      have hbp : l ≠ .absent ∧ r ≠ .absent := by
        rcases hlr with h2 | h2
        · exact absurd h2 hlf
        · exact h2
      rw [leavesLabeled01, if_neg hlf] at hll
      simp only [Bool.and_eq_true] at hll
      rw [internalLabelsIn, if_neg hlf] at hil
      simp only [Bool.and_eq_true] at hil
      obtain ⟨⟨hm, hill⟩, hilr⟩ := hil
      cases v with
      | none => exact absurd hm (by simp [Option.elim])
      | some a =>
        have ha : a ∈ attrs := by
          simpa [Option.elim] using hm
        obtain ⟨val, hval⟩ := hrow a ha
        have hla : lookupAttr row (some a) = some val := by
          rw [lookupAttr]
          exact hval
        rw [hla]
        simp only [Option.elim]
        by_cases hv0 : val = 0
        · rw [if_pos hv0, if_neg hbp.1]
          exact ihl hbp.1 hsbl hll.1 hill
        · rw [if_neg hv0, if_neg hbp.2]
          exact ihr hbp.2 hsbr hll.2 hilr

theorem create_node_child_eq (t : BTree) (p : Nat) (bv : Int)
    (hbv : bv = 0 ∨ bv = 1) (v : String) (z o : Nat) :
    _create_node t (some p) (some bv) v z o =
      match OptNode.setChildAt (bv == 0) p
          (.node (some v) (t.counter + 1) z o .absent .absent) t.root with
      | some r => .ok (t.counter + 1, ⟨r, t.counter + 1⟩)
      | none => .error .nodeNotFound := by
  rcases hbv with hbv | hbv
  · have h1 : (some bv : Option Int) = some 0 := by rw [hbv]
    have h2 : (bv == 0) = true := by rw [hbv]; rfl
    simp only [_create_node, if_pos h1, add_left_child, h2]
  · have h1 : (some bv : Option Int) ≠ some 0 := by rw [hbv]; simp
    have h12 : (some bv : Option Int) = some 1 := by rw [hbv]
    have h2 : (bv == 0) = false := by rw [hbv]; rfl
    simp only [_create_node, if_neg h1, if_pos h12, add_right_child, h2]

theorem build_tree_unfold (imp : Nat → Nat → ℝ) (dataset : List Row)
    (attributes : List String) (t : BTree) (parent_idx : Option Nat)
    (branch_value : Option Int) :
    _build_tree imp dataset attributes t parent_idx branch_value =
      (if countClass dataset 1 = 0 then
        (_create_node t parent_idx branch_value "0" (countClass dataset 0)
          (countClass dataset 1)).map (fun pr => pr.2)
      else if countClass dataset 0 = 0 then
        (_create_node t parent_idx branch_value "1" (countClass dataset 0)
          (countClass dataset 1)).map (fun pr => pr.2)
      else if attributes = [] then
        (_create_node t parent_idx branch_value
          (if countClass dataset 0 ≤ countClass dataset 1 then "1" else "0")
          (countClass dataset 0) (countClass dataset 1)).map (fun pr => pr.2)
      else
        match hba : best_attribute imp
            (imp (countClass dataset 1) (countClass dataset 0))
            dataset attributes with
        | .error e => .error e
        | .ok best =>
          match _create_node t parent_idx branch_value best
              (countClass dataset 0) (countClass dataset 1) with
          | .error e => .error e
          | .ok (current_idx, t1) =>
            match (if subsetOf dataset best 0 = [] then
                    (_create_node t1 (some current_idx) (some 0)
                      (if countClass dataset 0 ≤ countClass dataset 1 then "1"
                        else "0")
                      (countClass dataset 0) (countClass dataset 1)).map
                      (fun pr => pr.2)
                  else
                    _build_tree imp (subsetOf dataset best 0)
                      (attributes.filter (fun a => a ≠ best)) t1
                      (some current_idx) (some 0)) with
            | .error e => .error e
            | .ok t2 =>
              if subsetOf dataset best 1 = [] then
                (_create_node t2 (some current_idx) (some 1)
                  (if countClass dataset 0 ≤ countClass dataset 1 then "1"
                    else "0")
                  (countClass dataset 0) (countClass dataset 1)).map
                  (fun pr => pr.2)
              else
                _build_tree imp (subsetOf dataset best 1)
                  (attributes.filter (fun a => a ≠ best)) t2
                  (some current_idx) (some 1)) := by
  rw [_build_tree.eq_def]

theorem leaf_node_props (lbl : String) (hlbl : lbl = "0" ∨ lbl = "1")
    (i z o : Nat) :
    (OptNode.node (some lbl) i z o .absent .absent) ≠ .absent ∧
    strictBinaryB (.node (some lbl) i z o .absent .absent) = true ∧
    leavesLabeled01 (.node (some lbl) i z o .absent .absent) = true ∧
    (∀ attrs : List String,
      internalLabelsIn attrs (.node (some lbl) i z o .absent .absent) = true) ∧
    (OptNode.node (some lbl) i z o .absent .absent).indices = [i] ∧
    (OptNode.node (some lbl) i z o .absent .absent).height = 1 := by
  refine ⟨fun h => OptNode.noConfusion h, ?_, ?_, ?_, rfl, rfl⟩
  · rfl
  · rw [leavesLabeled01, if_pos ⟨rfl, rfl⟩]
    rcases hlbl with h | h
    · subst h
      decide
    · subst h
      decide
  · intro attrs
    rw [internalLabelsIn, if_pos ⟨rfl, rfl⟩]

theorem majority_label_cases (z o : Nat) :
    (if z ≤ o then "1" else "0") = "0" ∨ (if z ≤ o then "1" else "0") = "1" := by
  by_cases h : z ≤ o
  · rw [if_pos h]
    right
    rfl
  · rw [if_neg h]
    left
    rfl

theorem build_attach_leaf_case (t : BTree) (p : Nat) (bv : Int)
    (hbv : bv = 0 ∨ bv = 1)
    (hslot : OptNode.getChildSlot (bv == 0) p t.root = some .absent)
    (lbl : String) (z o : Nat) :
    ∃ root2,
      OptNode.setChildAt (bv == 0) p
        (.node (some lbl) (t.counter + 1) z o .absent .absent) t.root =
          some root2 ∧
      _create_node t (some p) (some bv) lbl z o =
        .ok (t.counter + 1, ⟨root2, t.counter + 1⟩) := by
  have hmem : p ∈ t.root.indices :=
    (getChildSlot_isSome_iff (bv == 0) p t.root).mp (by simp [hslot])
  have hs := (setChildAt_isSome_iff (bv == 0) p
    (.node (some lbl) (t.counter + 1) z o .absent .absent) t.root).mpr hmem
  obtain ⟨root2, hr2⟩ := Option.isSome_iff_exists.mp hs
  refine ⟨root2, hr2, ?_⟩
  rw [create_node_child_eq t p bv hbv, hr2]

theorem best_attribute_is_ok (imp : Nat → Nat → ℝ) (ti : ℝ) (dataset : List Row)
    (attributes : List String) (hat : attributes ≠ [])
    (hds : dataset.length ≠ 0) :
    ∃ b, best_attribute imp ti dataset attributes = .ok b := by
  cases attributes with
  | nil => exact absurd rfl hat
  | cons a rest =>
    rw [best_attribute, if_neg hds]
    exact ⟨_, rfl⟩

theorem best_attribute_ok_mem (imp : Nat → Nat → ℝ) (ti : ℝ) (dataset : List Row)
    (attributes : List String) (b : String)
    (h : best_attribute imp ti dataset attributes = .ok b) : b ∈ attributes := by
  cases attributes with
  | nil => exact absurd h (by simp [best_attribute])
  | cons a rest =>
    rw [best_attribute] at h
    by_cases hd : dataset.length = 0
    · rw [if_pos hd] at h
      exact absurd h (by simp)
    · rw [if_neg hd] at h
      injection h with h
      subst h
      rw [List.getD_eq_getElem?_getD]
      cases hg : (a :: rest)[firstMaxIdx ((a :: rest).map (gain imp ti dataset))]? with
      | none => simp
      | some x => simpa using List.getElem?_mem hg

theorem filter_ne_length_lt (l : List String) (b : String) (hb : b ∈ l) :
    (l.filter (fun a => a ≠ b)).length < l.length := by
  induction l with
  | nil => cases hb
  | cons x xs ih =>
    by_cases hx : x = b
    · subst hx
      have hle := List.length_filter_le (fun a => decide (a ≠ x)) xs
      have hcond : (decide (x ≠ x)) = false := by simp
      rw [List.filter_cons, hcond]
      simp only [Bool.false_eq_true, if_false, List.length_cons]
      omega
    · have hmem2 : b ∈ xs := by
        rcases List.mem_cons.mp hb with h | h
        · exact absurd h.symm hx
        · exact h
      have hcond : (decide (x ≠ b)) = true := by simp [hx]
      rw [List.filter_cons, hcond]
      simp only [if_true, List.length_cons]
      exact Nat.succ_lt_succ (ih hmem2)

theorem setChildAt_self_left (v : Option String) (i z o : Nat) (c : OptNode) :
    OptNode.setChildAt true i c (.node v i z o .absent .absent) =
      some (.node v i z o c .absent) := by
  rw [OptNode.setChildAt]
  simp

theorem setChildAt_self_right (v : Option String) (i z o : Nat) (l c : OptNode) :
    OptNode.setChildAt false i c (.node v i z o l .absent) =
      some (.node v i z o l c) := by
  rw [OptNode.setChildAt]
  simp

theorem getChildSlot_self (s2 : Bool) (v : Option String) (i z o : Nat) :
    OptNode.getChildSlot s2 i (.node v i z o .absent .absent) = some .absent := by
  rw [OptNode.getChildSlot]
  simp

theorem getChildSlot_self_right (v : Option String) (i z o : Nat) (l : OptNode) :
    OptNode.getChildSlot false i (.node v i z o l .absent) = some .absent := by
  rw [OptNode.getChildSlot]
  simp

theorem build_leaf_outcome (attributes : List String) (imp : Nat → Nat → ℝ)
    (dataset : List Row) (t : BTree) (p : Nat) (bv : Int)
    (hbv : bv = 0 ∨ bv = 1)
    (hslot : OptNode.getChildSlot (bv == 0) p t.root = some .absent)
    (lbl : String) (hlbl : lbl = "0" ∨ lbl = "1") (z o : Nat)
    (hbuild : _build_tree imp dataset attributes t (some p) (some bv) =
      (_create_node t (some p) (some bv) lbl z o).map (fun pr => pr.2)) :
    ∃ sub root2 c2,
      OptNode.setChildAt (bv == 0) p sub t.root = some root2 ∧
      _build_tree imp dataset attributes t (some p) (some bv) = .ok ⟨root2, c2⟩ ∧
      sub ≠ .absent ∧ strictBinaryB sub = true ∧ leavesLabeled01 sub = true ∧
      internalLabelsIn attributes sub = true ∧ sub.indices.Nodup ∧
      (∀ j ∈ sub.indices, t.counter < j ∧ j ≤ c2) ∧ t.counter < c2 ∧
      sub.height ≤ attributes.length + 1 := by
  obtain ⟨root2, hset, hcreate⟩ := build_attach_leaf_case t p bv hbv hslot lbl z o
  obtain ⟨hne, hsb, hll, hil, hind, hht⟩ :=
    leaf_node_props lbl hlbl (t.counter + 1) z o
  refine ⟨.node (some lbl) (t.counter + 1) z o .absent .absent, root2,
    t.counter + 1, hset, ?_, hne, hsb, hll, hil attributes, ?_, ?_,
    Nat.lt_succ_self _, ?_⟩
  · rw [hbuild, hcreate]
    rfl
  · rw [hind]
    exact List.nodup_singleton _
  · rw [hind]
    intro j hj
    rw [List.mem_singleton] at hj
    subst hj
    exact ⟨Nat.lt_succ_self _, le_refl _⟩
  · rw [hht]
    omega

theorem build_attach : ∀ (n : Nat) (attributes : List String),
    attributes.length ≤ n →
    ∀ (imp : Nat → Nat → ℝ) (dataset : List Row) (t : BTree) (p : Nat) (bv : Int),
    (bv = 0 ∨ bv = 1) →
    (∀ j ∈ t.root.indices, j ≤ t.counter) →
    OptNode.getChildSlot (bv == 0) p t.root = some .absent →
    ∃ sub root2 c2,
      OptNode.setChildAt (bv == 0) p sub t.root = some root2 ∧
      _build_tree imp dataset attributes t (some p) (some bv) = .ok ⟨root2, c2⟩ ∧
      sub ≠ .absent ∧ strictBinaryB sub = true ∧ leavesLabeled01 sub = true ∧
      internalLabelsIn attributes sub = true ∧ sub.indices.Nodup ∧
      (∀ j ∈ sub.indices, t.counter < j ∧ j ≤ c2) ∧ t.counter < c2 ∧
      sub.height ≤ attributes.length + 1 := by
  intro n
  induction n with
  | zero =>
    intro attributes hlen imp dataset t p bv hbv hfresh hslot
    have hattrs : attributes = [] := List.length_eq_zero.mp (Nat.le_zero.mp hlen)
    subst hattrs
    by_cases h1 : countClass dataset 1 = 0
    · exact build_leaf_outcome [] imp dataset t p bv hbv hslot "0" (Or.inl rfl)
        (countClass dataset 0) (countClass dataset 1)
        (by rw [build_tree_unfold, if_pos h1])
    · by_cases h0 : countClass dataset 0 = 0
      · exact build_leaf_outcome [] imp dataset t p bv hbv hslot "1" (Or.inr rfl)
          (countClass dataset 0) (countClass dataset 1)
          (by rw [build_tree_unfold, if_neg h1, if_pos h0])
      · exact build_leaf_outcome [] imp dataset t p bv hbv hslot
          (if countClass dataset 0 ≤ countClass dataset 1 then "1" else "0")
          (majority_label_cases _ _)
          (countClass dataset 0) (countClass dataset 1)
          (by rw [build_tree_unfold, if_neg h1, if_neg h0,
            if_pos (rfl : ([] : List String) = [])])
  | succ n ih =>
    intro attributes hlen imp dataset t p bv hbv hfresh hslot
    by_cases h1 : countClass dataset 1 = 0
    · exact build_leaf_outcome attributes imp dataset t p bv hbv hslot "0"
        (Or.inl rfl) (countClass dataset 0) (countClass dataset 1)
        (by rw [build_tree_unfold, if_pos h1])
    by_cases h0 : countClass dataset 0 = 0
    · exact build_leaf_outcome attributes imp dataset t p bv hbv hslot "1"
        (Or.inr rfl) (countClass dataset 0) (countClass dataset 1)
        (by rw [build_tree_unfold, if_neg h1, if_pos h0])
    by_cases hat : attributes = []
    · exact build_leaf_outcome attributes imp dataset t p bv hbv hslot
        (if countClass dataset 0 ≤ countClass dataset 1 then "1" else "0")
        (majority_label_cases _ _)
        (countClass dataset 0) (countClass dataset 1)
        (by rw [build_tree_unfold, if_neg h1, if_neg h0, if_pos hat])
    -- the splitting branch
    have hds : dataset.length ≠ 0 := by
      intro hd
      exact h1 (by rw [List.length_eq_zero.mp hd]; rfl)
    obtain ⟨best, hba⟩ := best_attribute_is_ok imp
      (imp (countClass dataset 1) (countClass dataset 0)) dataset attributes
      hat hds
    have hbmem : best ∈ attributes := best_attribute_ok_mem _ _ _ _ _ hba
    have hrem : (attributes.filter (fun a => a ≠ best)).length ≤ n := by
      have := filter_ne_length_lt attributes best hbmem
      omega
    obtain ⟨root1, hset1, hcreate1⟩ := build_attach_leaf_case t p bv hbv hslot
      best (countClass dataset 0) (countClass dataset 1)
    have hcur_notin : (t.counter + 1) ∉ t.root.indices := by
      intro hm
      have := hfresh _ hm
      omega
    have hperm1 : root1.indices.Perm (t.root.indices ++
        (OptNode.node (some best) (t.counter + 1) (countClass dataset 0)
          (countClass dataset 1) .absent .absent).indices) :=
      indices_setChildAt_perm (bv == 0) p _ t.root root1 hset1 hslot
    have hfresh1 : ∀ j ∈ root1.indices, j ≤ t.counter + 1 := by
      intro j hj
      have hm := hperm1.mem_iff.mp hj
      rw [List.mem_append] at hm
      rcases hm with hm | hm
      · have := hfresh j hm
        omega
      · simp [OptNode.indices] at hm
        omega
    have hslot0 : OptNode.getChildSlot true (t.counter + 1) root1 = some .absent := by
      rw [getChildSlot_setChildAt_not_mem (bv == 0) true p (t.counter + 1) _
        t.root root1 hset1 hcur_notin]
      exact getChildSlot_self true (some best) (t.counter + 1) _ _
    -- step for attribute value 0
    have step0 : ∃ sub0 root2L c2L,
        OptNode.setChildAt true (t.counter + 1) sub0 root1 = some root2L ∧
        (if subsetOf dataset best 0 = [] then
          (_create_node ⟨root1, t.counter + 1⟩ (some (t.counter + 1)) (some 0)
            (if countClass dataset 0 ≤ countClass dataset 1 then "1" else "0")
            (countClass dataset 0) (countClass dataset 1)).map (fun pr => pr.2)
        else
          _build_tree imp (subsetOf dataset best 0)
            (attributes.filter (fun a => a ≠ best)) ⟨root1, t.counter + 1⟩
            (some (t.counter + 1)) (some 0)) = .ok ⟨root2L, c2L⟩ ∧
        sub0 ≠ .absent ∧ strictBinaryB sub0 = true ∧
        leavesLabeled01 sub0 = true ∧
        internalLabelsIn (attributes.filter (fun a => a ≠ best)) sub0 = true ∧
        sub0.indices.Nodup ∧
        (∀ j ∈ sub0.indices, t.counter + 1 < j ∧ j ≤ c2L) ∧
        t.counter + 1 < c2L ∧
        sub0.height ≤ (attributes.filter (fun a => a ≠ best)).length + 1 := by
      by_cases hs0 : subsetOf dataset best 0 = []
      · obtain ⟨r2, hsetr, hcreater⟩ := build_attach_leaf_case
          ⟨root1, t.counter + 1⟩ (t.counter + 1) 0 (Or.inl rfl) hslot0
          (if countClass dataset 0 ≤ countClass dataset 1 then "1" else "0")
          (countClass dataset 0) (countClass dataset 1)
        obtain ⟨hne, hsb, hll, hil, hind, hht⟩ := leaf_node_props
          (if countClass dataset 0 ≤ countClass dataset 1 then "1" else "0")
          (majority_label_cases _ _) (t.counter + 1 + 1)
          (countClass dataset 0) (countClass dataset 1)
        refine ⟨_, r2, t.counter + 1 + 1, hsetr, ?_, hne, hsb, hll, hil _, ?_,
          ?_, by omega, ?_⟩
        · rw [if_pos hs0, hcreater]
          rfl
        · rw [hind]
          exact List.nodup_singleton _
        · rw [hind]
          intro j hj
          rw [List.mem_singleton] at hj
          subst hj
          omega
        · rw [hht]
          omega
      · obtain ⟨sub0, root2L, c2L, hsetr, hbuildr, hne, hsb, hll, hil, hnd,
          hrange, hclt, hht⟩ := ih (attributes.filter (fun a => a ≠ best)) hrem
          imp (subsetOf dataset best 0) ⟨root1, t.counter + 1⟩ (t.counter + 1) 0
          (Or.inl rfl) hfresh1 hslot0
        refine ⟨sub0, root2L, c2L, hsetr, ?_, hne, hsb, hll, hil, hnd, hrange,
          hclt, hht⟩
        rw [if_neg hs0]
        exact hbuildr
    obtain ⟨sub0, root2L, c2L, hsetL, hv0eq, hne0, hsb0, hll0, hil0, hnd0,
      hrange0, hclt0, hht0⟩ := step0
    -- nest the value-0 subtree into the original tree
    obtain ⟨r2a, hr2a, hset2⟩ := setChildAt_nest (bv == 0) true p (t.counter + 1)
      (.node (some best) (t.counter + 1) (countClass dataset 0)
        (countClass dataset 1) .absent .absent) sub0 t.root root1
      (.node (some best) (t.counter + 1) (countClass dataset 0)
        (countClass dataset 1) sub0 .absent) hset1 hcur_notin
      (setChildAt_self_left (some best) (t.counter + 1) _ _ sub0)
    rw [hsetL] at hr2a
    injection hr2a with hr2a
    subst hr2a
    -- facts about the updated tree
    have hperm2 : root2L.indices.Perm (t.root.indices ++
        (OptNode.node (some best) (t.counter + 1) (countClass dataset 0)
          (countClass dataset 1) sub0 .absent).indices) :=
      indices_setChildAt_perm (bv == 0) p _ t.root root2L hset2 hslot
    have hfresh2 : ∀ j ∈ root2L.indices, j ≤ c2L := by
      intro j hj
      have hm := hperm2.mem_iff.mp hj
      rw [List.mem_append] at hm
      rcases hm with hm | hm
      · have := hfresh j hm
        omega
      · simp [OptNode.indices] at hm
        rcases hm with rfl | hm
        · omega
        · exact (hrange0 j hm).2
    have hslot1 : OptNode.getChildSlot false (t.counter + 1) root2L =
        some .absent := by
      rw [getChildSlot_setChildAt_not_mem (bv == 0) false p (t.counter + 1) _
        t.root root2L hset2 hcur_notin]
      exact getChildSlot_self_right (some best) (t.counter + 1) _ _ sub0
    -- step for attribute value 1
    have step1 : ∃ sub1 root3 c3,
        OptNode.setChildAt false (t.counter + 1) sub1 root2L = some root3 ∧
        (if subsetOf dataset best 1 = [] then
          (_create_node ⟨root2L, c2L⟩ (some (t.counter + 1)) (some 1)
            (if countClass dataset 0 ≤ countClass dataset 1 then "1" else "0")
            (countClass dataset 0) (countClass dataset 1)).map (fun pr => pr.2)
        else
          _build_tree imp (subsetOf dataset best 1)
            (attributes.filter (fun a => a ≠ best)) ⟨root2L, c2L⟩
            (some (t.counter + 1)) (some 1)) = .ok ⟨root3, c3⟩ ∧
        sub1 ≠ .absent ∧ strictBinaryB sub1 = true ∧
        leavesLabeled01 sub1 = true ∧
        internalLabelsIn (attributes.filter (fun a => a ≠ best)) sub1 = true ∧
        sub1.indices.Nodup ∧
        (∀ j ∈ sub1.indices, c2L < j ∧ j ≤ c3) ∧
        c2L < c3 ∧
        sub1.height ≤ (attributes.filter (fun a => a ≠ best)).length + 1 := by
      by_cases hs1 : subsetOf dataset best 1 = []
      · obtain ⟨r3, hsetr, hcreater⟩ := build_attach_leaf_case
          ⟨root2L, c2L⟩ (t.counter + 1) 1 (Or.inr rfl) hslot1
          (if countClass dataset 0 ≤ countClass dataset 1 then "1" else "0")
          (countClass dataset 0) (countClass dataset 1)
        obtain ⟨hne, hsb, hll, hil, hind, hht⟩ := leaf_node_props
          (if countClass dataset 0 ≤ countClass dataset 1 then "1" else "0")
          (majority_label_cases _ _) (c2L + 1)
          (countClass dataset 0) (countClass dataset 1)
        refine ⟨_, r3, c2L + 1, hsetr, ?_, hne, hsb, hll, hil _, ?_, ?_,
          by omega, ?_⟩
        · rw [if_pos hs1, hcreater]
          rfl
        · rw [hind]
          exact List.nodup_singleton _
        · rw [hind]
          intro j hj
          rw [List.mem_singleton] at hj
          subst hj
          omega
        · rw [hht]
          omega
      · obtain ⟨sub1, root3, c3, hsetr, hbuildr, hne, hsb, hll, hil, hnd,
          hrange, hclt, hht⟩ := ih (attributes.filter (fun a => a ≠ best)) hrem
          imp (subsetOf dataset best 1) ⟨root2L, c2L⟩ (t.counter + 1) 1
          (Or.inr rfl) hfresh2 hslot1
        refine ⟨sub1, root3, c3, hsetr, ?_, hne, hsb, hll, hil, hnd, hrange,
          hclt, hht⟩
        rw [if_neg hs1]
        exact hbuildr
    obtain ⟨sub1, root3, c3, hsetR, hv1eq, hne1, hsb1, hll1, hil1, hnd1,
      hrange1, hclt1, hht1⟩ := step1
    -- nest the value-1 subtree
    obtain ⟨r3a, hr3a, hset3⟩ := setChildAt_nest (bv == 0) false p (t.counter + 1)
      (.node (some best) (t.counter + 1) (countClass dataset 0)
        (countClass dataset 1) sub0 .absent) sub1 t.root root2L
      (.node (some best) (t.counter + 1) (countClass dataset 0)
        (countClass dataset 1) sub0 sub1) hset2 hcur_notin
      (setChildAt_self_right (some best) (t.counter + 1) _ _ sub0 sub1)
    rw [hsetR] at hr3a
    injection hr3a with hr3a
    subst hr3a
    -- the final result
    refine ⟨.node (some best) (t.counter + 1) (countClass dataset 0)
      (countClass dataset 1) sub0 sub1, root3, c3, hset3, ?_, ?_, ?_, ?_, ?_,
      ?_, ?_, ?_, ?_⟩
    · -- the computed result of _build_tree
      rw [build_tree_unfold, if_neg h1, if_neg h0, if_neg hat]
      split
      · next e heq =>
        rw [hba] at heq
        exact absurd heq (by simp)
      · next best2 heq =>
        rw [hba] at heq
        injection heq with heq
        subst heq
        split
        · next e heq2 =>
          rw [hcreate1] at heq2
          exact absurd heq2 (by simp)
        · next current_idx t1x heq2 =>
          rw [hcreate1] at heq2
          injection heq2 with heq2
          injection heq2 with hcx htx
          subst hcx
          subst htx
          split
          · next e heq3 =>
            rw [hv0eq] at heq3
            exact absurd heq3 (by simp)
          · next t2x heq3 =>
            rw [hv0eq] at heq3
            injection heq3 with heq3
            subst heq3
            exact hv1eq
    · exact fun h => OptNode.noConfusion h
    · rw [strictBinaryB]
      simp only [Bool.and_eq_true, Bool.or_eq_true, decide_eq_true_eq]
      exact ⟨⟨Or.inr ⟨hne0, hne1⟩, hsb0⟩, hsb1⟩
    · rw [leavesLabeled01]
      have hnl : ¬ (sub0 = .absent ∧ sub1 = .absent) := fun hc => hne0 hc.1
      rw [if_neg hnl]
      simp only [Bool.and_eq_true]
      exact ⟨hll0, hll1⟩
    · rw [internalLabelsIn]
      have hnl : ¬ (sub0 = .absent ∧ sub1 = .absent) := fun hc => hne0 hc.1
      rw [if_neg hnl]
      simp only [Bool.and_eq_true]
      have hsubf : ∀ a ∈ attributes.filter (fun a => a ≠ best), a ∈ attributes :=
        fun a ha => List.mem_of_mem_filter ha
      refine ⟨⟨?_, internalLabelsIn_mono _ _ hsubf sub0 hil0⟩,
        internalLabelsIn_mono _ _ hsubf sub1 hil1⟩
      simp only [Option.elim, decide_eq_true_eq]
      exact hbmem
    · rw [OptNode.indices]
      refine List.Nodup.cons ?_ (List.Nodup.append hnd0 hnd1 ?_)
      · intro hm
        rw [List.mem_append] at hm
        rcases hm with hm | hm
        · have := (hrange0 _ hm).1
          omega
        · have := (hrange1 _ hm).1
          omega
      · intro a ha0 ha1
        have := (hrange0 _ ha0).2
        have := (hrange1 _ ha1).1
        omega
    · rw [OptNode.indices]
      intro j hj
      rw [List.mem_cons, List.mem_append] at hj
      rcases hj with rfl | hj | hj
      · omega
      · have := hrange0 _ hj
        omega
      · have := hrange1 _ hj
        omega
    · omega
    · rw [OptNode.height]
      have := filter_ne_length_lt attributes best hbmem
      omega

/-- C3: the recursive builder is a total function (this definition is by
well-founded recursion on the remaining-attribute list, each recursive call
passing a strictly shorter list), it succeeds on every reachable call
state, and the subtree it attaches — hence the recursion depth — is
bounded by the number of remaining attributes plus the final leaf level. -/
theorem build_tree_depth_bound (imp : Nat → Nat → ℝ) (dataset : List Row)
    (attributes : List String) (t : BTree) (p : Nat) (bv : Int)
    (hbv : bv = 0 ∨ bv = 1)
    (hfresh : ∀ j ∈ t.root.indices, j ≤ t.counter)
    (hslot : OptNode.getChildSlot (bv == 0) p t.root = some .absent) :
    ∃ sub root2 c2,
      OptNode.setChildAt (bv == 0) p sub t.root = some root2 ∧
      _build_tree imp dataset attributes t (some p) (some bv) = .ok ⟨root2, c2⟩ ∧
      sub.height ≤ attributes.length + 1 := by
  obtain ⟨sub, root2, c2, hset, hbuild, _, _, _, _, _, _, _, hht⟩ :=
    build_attach attributes.length attributes (le_refl _) imp dataset t p bv
      hbv hfresh hslot
  exact ⟨sub, root2, c2, hset, hbuild, hht⟩

theorem build_tree_depth_bound_witness :
    ((0 : Int) = 0 ∨ (0 : Int) = 1) ∧
    (∀ j ∈ (⟨.node (some "A") 0 1 1 .absent .absent, 0⟩ : BTree).root.indices,
      j ≤ (⟨.node (some "A") 0 1 1 .absent .absent, 0⟩ : BTree).counter) ∧
    OptNode.getChildSlot (((0 : Int)) == 0) 0
      (⟨.node (some "A") 0 1 1 .absent .absent, 0⟩ : BTree).root =
        some .absent ∧
    ∃ sub root2 c2,
      OptNode.setChildAt (((0 : Int)) == 0) 0 sub
        (⟨.node (some "A") 0 1 1 .absent .absent, 0⟩ : BTree).root =
          some root2 ∧
      _build_tree (fun _ _ => (0 : ℝ)) [] []
        ⟨.node (some "A") 0 1 1 .absent .absent, 0⟩ (some 0) (some 0) =
          .ok ⟨root2, c2⟩ ∧
      sub.height ≤ ([] : List String).length + 1 :=
  ⟨Or.inl rfl, by decide, by decide,
    build_tree_depth_bound (fun _ _ => 0) [] []
      ⟨.node (some "A") 0 1 1 .absent .absent, 0⟩ 0 0 (Or.inl rfl)
      (by decide) (by decide)⟩

/-- C2: on a dataset of 0/1 values, `construct_tree` succeeds with a strict
binary tree whose node indices never repeat, whose every leaf carries the
label `"0"` or `"1"` (never an absent label), and on which `predict`
succeeds for every row mapping each of the dataset's attribute columns to
0 or 1. -/
theorem construct_tree_wellformed (imp : Nat → Nat → ℝ) (cols : List String)
    (rows : List Row) (hne : rows ≠ []) (hwf : datasetValues01 rows) :
    ∃ t : BTree, construct_tree imp cols rows = .ok t ∧
      t.root ≠ .absent ∧
      strictBinaryB t.root = true ∧
      t.root.indices.Nodup ∧
      leavesLabeled01 t.root = true ∧
      ∀ row : Row,
        (∀ a ∈ cols.filter (fun c => c ≠ TARGET_COLUMN),
          ∃ v, row.lookup a = some v ∧ (v = 0 ∨ v = 1)) →
        ∃ v, predict t row = .ok v := by
  clear hne hwf
  have hmain : ∃ (rt : OptNode) (c : Nat),
      _build_tree imp rows (cols.filter (fun c => c ≠ TARGET_COLUMN))
        ⟨.absent, 0⟩ none none = .ok ⟨rt, c⟩ ∧
      rt ≠ .absent ∧ strictBinaryB rt = true ∧ rt.indices.Nodup ∧
      leavesLabeled01 rt = true ∧
      internalLabelsIn (cols.filter (fun c => c ≠ TARGET_COLUMN)) rt = true := by
    by_cases h1 : countClass rows 1 = 0
    · obtain ⟨hnep, hsb, hll, hil, hind, _⟩ := leaf_node_props "0" (Or.inl rfl) 0
        (countClass rows 0) (countClass rows 1)
      refine ⟨.node (some "0") 0 (countClass rows 0) (countClass rows 1)
        .absent .absent, 0, ?_, hnep, hsb,
        by rw [hind]; exact List.nodup_singleton _, hll, hil _⟩
      rw [build_tree_unfold, if_pos h1]
      rfl
    by_cases h0 : countClass rows 0 = 0
    · obtain ⟨hnep, hsb, hll, hil, hind, _⟩ := leaf_node_props "1" (Or.inr rfl) 0
        (countClass rows 0) (countClass rows 1)
      refine ⟨.node (some "1") 0 (countClass rows 0) (countClass rows 1)
        .absent .absent, 0, ?_, hnep, hsb,
        by rw [hind]; exact List.nodup_singleton _, hll, hil _⟩
      rw [build_tree_unfold, if_neg h1, if_pos h0]
      rfl
    by_cases hat : cols.filter (fun c => c ≠ TARGET_COLUMN) = []
    · obtain ⟨hnep, hsb, hll, hil, hind, _⟩ := leaf_node_props
        (if countClass rows 0 ≤ countClass rows 1 then "1" else "0")
        (majority_label_cases _ _) 0 (countClass rows 0) (countClass rows 1)
      refine ⟨.node (some (if countClass rows 0 ≤ countClass rows 1 then "1"
        else "0")) 0 (countClass rows 0) (countClass rows 1)
        .absent .absent, 0, ?_, hnep, hsb,
        by rw [hind]; exact List.nodup_singleton _, hll, hil _⟩
      rw [build_tree_unfold, if_neg h1, if_neg h0, if_pos hat]
      rfl
    -- the splitting case at the root
    have hds : rows.length ≠ 0 := by
      intro hd
      exact h1 (by rw [List.length_eq_zero.mp hd]; rfl)
    obtain ⟨best, hba⟩ := best_attribute_is_ok imp
      (imp (countClass rows 1) (countClass rows 0)) rows
      (cols.filter (fun c => c ≠ TARGET_COLUMN)) hat hds
    have hbmem : best ∈ cols.filter (fun c => c ≠ TARGET_COLUMN) :=
      best_attribute_ok_mem _ _ _ _ _ hba
    have hcreate1 : _create_node ⟨.absent, 0⟩ none none best
        (countClass rows 0) (countClass rows 1) =
        .ok (0, ⟨.node (some best) 0 (countClass rows 0) (countClass rows 1)
          .absent .absent, 0⟩) := rfl
    have hfresh1 : ∀ j ∈ (⟨.node (some best) 0 (countClass rows 0)
        (countClass rows 1) .absent .absent, 0⟩ : BTree).root.indices,
        j ≤ (⟨.node (some best) 0 (countClass rows 0) (countClass rows 1)
          .absent .absent, 0⟩ : BTree).counter := by
      intro j hj
      simp [OptNode.indices] at hj
      omega
    have hslot0 : OptNode.getChildSlot true 0
        (OptNode.node (some best) 0 (countClass rows 0) (countClass rows 1)
          .absent .absent) = some .absent :=
      getChildSlot_self true (some best) 0 _ _
    have step0 : ∃ sub0 root2L c2L,
        OptNode.setChildAt true 0 sub0
          (OptNode.node (some best) 0 (countClass rows 0) (countClass rows 1)
            .absent .absent) = some root2L ∧
        (if subsetOf rows best 0 = [] then
          (_create_node ⟨.node (some best) 0 (countClass rows 0)
              (countClass rows 1) .absent .absent, 0⟩ (some 0) (some 0)
            (if countClass rows 0 ≤ countClass rows 1 then "1" else "0")
            (countClass rows 0) (countClass rows 1)).map (fun pr => pr.2)
        else
          _build_tree imp (subsetOf rows best 0)
            ((cols.filter (fun c => c ≠ TARGET_COLUMN)).filter
              (fun a => a ≠ best))
            ⟨.node (some best) 0 (countClass rows 0) (countClass rows 1)
              .absent .absent, 0⟩ (some 0) (some 0)) = .ok ⟨root2L, c2L⟩ ∧
        sub0 ≠ .absent ∧ strictBinaryB sub0 = true ∧
        leavesLabeled01 sub0 = true ∧
        internalLabelsIn ((cols.filter (fun c => c ≠ TARGET_COLUMN)).filter
          (fun a => a ≠ best)) sub0 = true ∧
        sub0.indices.Nodup ∧
        (∀ j ∈ sub0.indices, 0 < j ∧ j ≤ c2L) ∧
        0 < c2L := by
      by_cases hs0 : subsetOf rows best 0 = []
      · obtain ⟨r2, hsetr, hcreater⟩ := build_attach_leaf_case
          ⟨.node (some best) 0 (countClass rows 0) (countClass rows 1)
            .absent .absent, 0⟩ 0 0 (Or.inl rfl) hslot0
          (if countClass rows 0 ≤ countClass rows 1 then "1" else "0")
          (countClass rows 0) (countClass rows 1)
        obtain ⟨hnep, hsb, hll, hil, hind, _⟩ := leaf_node_props
          (if countClass rows 0 ≤ countClass rows 1 then "1" else "0")
          (majority_label_cases _ _) 1 (countClass rows 0) (countClass rows 1)
        refine ⟨_, r2, 1, hsetr, ?_, hnep, hsb, hll, hil _, ?_, ?_, by omega⟩
        · rw [if_pos hs0, hcreater]
          rfl
        · rw [hind]
          exact List.nodup_singleton _
        · rw [hind]
          intro j hj
          rw [List.mem_singleton] at hj
          subst hj
          omega
      · obtain ⟨sub0, root2L, c2L, hsetr, hbuildr, hnep, hsb, hll, hil, hnd,
          hrange, hclt, _⟩ := build_attach
          ((cols.filter (fun c => c ≠ TARGET_COLUMN)).filter
            (fun a => a ≠ best)).length _ (le_refl _) imp
          (subsetOf rows best 0)
          ⟨.node (some best) 0 (countClass rows 0) (countClass rows 1)
            .absent .absent, 0⟩ 0 0 (Or.inl rfl) hfresh1 hslot0
        refine ⟨sub0, root2L, c2L, hsetr, ?_, hnep, hsb, hll, hil, hnd,
          ?_, by omega⟩
        · rw [if_neg hs0]
          exact hbuildr
        · intro j hj
          have := hrange j hj
          omega
    obtain ⟨sub0, root2L, c2L, hsetL0, hv0eq, hne0, hsb0, hll0, hil0, hnd0,
      hrange0, hclt0⟩ := step0
    rw [setChildAt_self_left] at hsetL0
    injection hsetL0 with hsetL0
    have hfresh2 : ∀ j ∈ (⟨root2L, c2L⟩ : BTree).root.indices,
        j ≤ (⟨root2L, c2L⟩ : BTree).counter := by
      intro j hj
      rw [← hsetL0] at hj
      simp [OptNode.indices] at hj
      rcases hj with rfl | hj
      · omega
      · exact (hrange0 j hj).2
    have hslot1 : OptNode.getChildSlot false 0 root2L = some .absent := by
      rw [← hsetL0]
      exact getChildSlot_self_right (some best) 0 _ _ sub0
    have step1 : ∃ sub1 root3 c3,
        OptNode.setChildAt false 0 sub1 root2L = some root3 ∧
        (if subsetOf rows best 1 = [] then
          (_create_node ⟨root2L, c2L⟩ (some 0) (some 1)
            (if countClass rows 0 ≤ countClass rows 1 then "1" else "0")
            (countClass rows 0) (countClass rows 1)).map (fun pr => pr.2)
        else
          _build_tree imp (subsetOf rows best 1)
            ((cols.filter (fun c => c ≠ TARGET_COLUMN)).filter
              (fun a => a ≠ best)) ⟨root2L, c2L⟩ (some 0) (some 1)) =
          .ok ⟨root3, c3⟩ ∧
        sub1 ≠ .absent ∧ strictBinaryB sub1 = true ∧
        leavesLabeled01 sub1 = true ∧
        internalLabelsIn ((cols.filter (fun c => c ≠ TARGET_COLUMN)).filter
          (fun a => a ≠ best)) sub1 = true ∧
        sub1.indices.Nodup ∧
        (∀ j ∈ sub1.indices, c2L < j ∧ j ≤ c3) := by
      by_cases hs1 : subsetOf rows best 1 = []
      · obtain ⟨r3, hsetr, hcreater⟩ := build_attach_leaf_case
          ⟨root2L, c2L⟩ 0 1 (Or.inr rfl) hslot1
          (if countClass rows 0 ≤ countClass rows 1 then "1" else "0")
          (countClass rows 0) (countClass rows 1)
        obtain ⟨hnep, hsb, hll, hil, hind, _⟩ := leaf_node_props
          (if countClass rows 0 ≤ countClass rows 1 then "1" else "0")
          (majority_label_cases _ _) (c2L + 1)
          (countClass rows 0) (countClass rows 1)
        refine ⟨_, r3, c2L + 1, hsetr, ?_, hnep, hsb, hll, hil _, ?_, ?_⟩
        · rw [if_pos hs1, hcreater]
          rfl
        · rw [hind]
          exact List.nodup_singleton _
        · rw [hind]
          intro j hj
          rw [List.mem_singleton] at hj
          subst hj
          omega
      · obtain ⟨sub1, root3, c3, hsetr, hbuildr, hnep, hsb, hll, hil, hnd,
          hrange, hclt, _⟩ := build_attach
          ((cols.filter (fun c => c ≠ TARGET_COLUMN)).filter
            (fun a => a ≠ best)).length _ (le_refl _) imp
          (subsetOf rows best 1) ⟨root2L, c2L⟩ 0 1 (Or.inr rfl) hfresh2 hslot1
        refine ⟨sub1, root3, c3, hsetr, ?_, hnep, hsb, hll, hil, hnd, hrange⟩
        rw [if_neg hs1]
        exact hbuildr
    obtain ⟨sub1, root3, c3, hsetR1, hv1eq, hne1, hsb1, hll1, hil1, hnd1,
      hrange1⟩ := step1
    rw [← hsetL0, setChildAt_self_right] at hsetR1
    injection hsetR1 with hsetR1
    have hsubf : ∀ a ∈ (cols.filter (fun c => c ≠ TARGET_COLUMN)).filter
        (fun a => a ≠ best), a ∈ cols.filter (fun c => c ≠ TARGET_COLUMN) :=
      fun a ha => List.mem_of_mem_filter ha
    refine ⟨.node (some best) 0 (countClass rows 0) (countClass rows 1)
      sub0 sub1, c3, ?_, fun h => OptNode.noConfusion h, ?_, ?_, ?_, ?_⟩
    · rw [build_tree_unfold, if_neg h1, if_neg h0, if_neg hat]
      split
      · next e heq =>
        rw [hba] at heq
        exact absurd heq (by simp)
      · next best2 heq =>
        rw [hba] at heq
        injection heq with heq
        subst heq
        split
        · next e heq2 =>
          rw [hcreate1] at heq2
          exact absurd heq2 (by simp)
        · next current_idx t1x heq2 =>
          rw [hcreate1] at heq2
          injection heq2 with heq2
          injection heq2 with hcx htx
          subst hcx
          subst htx
          split
          · next e heq3 =>
            rw [hv0eq] at heq3
            exact absurd heq3 (by simp)
          · next t2x heq3 =>
            rw [hv0eq] at heq3
            injection heq3 with heq3
            subst heq3
            rw [hsetR1]
            exact hv1eq
    · rw [strictBinaryB]
      simp only [Bool.and_eq_true, Bool.or_eq_true, decide_eq_true_eq]
      exact ⟨⟨Or.inr ⟨hne0, hne1⟩, hsb0⟩, hsb1⟩
    · rw [OptNode.indices]
      refine List.Nodup.cons ?_ (List.Nodup.append hnd0 hnd1 ?_)
      · intro hm
        rw [List.mem_append] at hm
        rcases hm with hm | hm
        · have := (hrange0 _ hm).1
          omega
        · have := (hrange1 _ hm).1
          have := hclt0
          omega
      · intro a ha0 ha1
        have := (hrange0 _ ha0).2
        have := (hrange1 _ ha1).1
        omega
    · rw [leavesLabeled01]
      have hnl : ¬ (sub0 = .absent ∧ sub1 = .absent) := fun hc => hne0 hc.1
      rw [if_neg hnl]
      simp only [Bool.and_eq_true]
      exact ⟨hll0, hll1⟩
    · rw [internalLabelsIn]
      have hnl : ¬ (sub0 = .absent ∧ sub1 = .absent) := fun hc => hne0 hc.1
      rw [if_neg hnl]
      simp only [Bool.and_eq_true]
      refine ⟨⟨?_, internalLabelsIn_mono _ _ hsubf sub0 hil0⟩,
        internalLabelsIn_mono _ _ hsubf sub1 hil1⟩
      simp only [Option.elim, decide_eq_true_eq]
      exact hbmem
  obtain ⟨rt, c, hbuild, hrne, hsb, hnd, hll, hil⟩ := hmain
  refine ⟨⟨rt, c⟩, ?_, hrne, hsb, hnd, hll, ?_⟩
  · rw [construct_tree]
    exact hbuild
  · intro row hrow
    have hlk : ∀ a ∈ cols.filter (fun c => c ≠ TARGET_COLUMN),
        ∃ v, row.lookup a = some v := by
      intro a ha
      obtain ⟨v, hv, _⟩ := hrow a ha
      exact ⟨v, hv⟩
    obtain ⟨v, hv⟩ := traverse_ok_of_wellformed
      (cols.filter (fun c => c ≠ TARGET_COLUMN)) row hlk rt hrne hsb hll hil
    cases hrt : rt with
    | absent => exact absurd hrt hrne
    | node v2 j2 z2 o2 l2 r2 =>
      subst hrt
      exact ⟨v, hv⟩

/-- Witness for C2: on the concrete two-row dataset over attribute `A` with
target `Class`, the hypotheses hold and `construct_tree` yields a
well-formed tree on which `predict` succeeds. -/
theorem construct_tree_wellformed_witness :
    (([[("A", 0), ("Class", 0)], [("A", 1), ("Class", 1)]] : List Row) ≠ []) ∧
    datasetValues01
      ([[("A", 0), ("Class", 0)], [("A", 1), ("Class", 1)]] : List Row) ∧
    ∃ t : BTree,
      construct_tree (fun _ _ => (0 : ℝ)) ["A", "Class"]
        ([[("A", 0), ("Class", 0)], [("A", 1), ("Class", 1)]] : List Row) =
          .ok t ∧
      t.root ≠ .absent ∧
      strictBinaryB t.root = true ∧
      t.root.indices.Nodup ∧
      leavesLabeled01 t.root = true ∧
      ∀ row : Row,
        (∀ a ∈ (["A", "Class"] : List String).filter
            (fun c => c ≠ TARGET_COLUMN),
          ∃ v, row.lookup a = some v ∧ (v = 0 ∨ v = 1)) →
        ∃ v, predict t row = .ok v :=
  ⟨by decide, by decide,
    construct_tree_wellformed (fun _ _ => (0 : ℝ)) ["A", "Class"]
      ([[("A", 0), ("Class", 0)], [("A", 1), ("Class", 1)]] : List Row)
      (by decide) (by decide)⟩

/-! # C9: pruning never mutates the base tree (heap model) -/

theorem store_get_cons (k : Nat) (n : HNode) (mem : List (Nat × HNode))
    (nx a : Nat) :
    Store.get ⟨(k, n) :: mem, nx⟩ a =
      if a = k then some n else Store.get ⟨mem, nx⟩ a := by
  by_cases hk : a = k
  · have hb : (a == k) = true := beq_iff_eq.mpr hk
    rw [Store.get, show ((⟨(k, n) :: mem, nx⟩ : Store).mem) = (k, n) :: mem
      from rfl, List.lookup_cons, hb, if_pos hk]
  · have hb : (a == k) = false := by
      rw [beq_eq_false_iff_ne]
      exact hk
    rw [Store.get, show ((⟨(k, n) :: mem, nx⟩ : Store).mem) = (k, n) :: mem
      from rfl, List.lookup_cons, hb, if_neg hk]
    rfl

theorem store_get_set (σ : Store) (k : Nat) (n : HNode) (a : Nat) :
    (σ.set k n).get a = if a = k then some n else σ.get a :=
  store_get_cons k n σ.mem σ.next a

theorem storeBound_inv (σ : Store) (hwf : storeBound σ = true) :
    storeInv σ.next σ := by
  rw [storeBound, List.all_eq_true] at hwf
  refine ⟨le_refl _, ?_, ?_⟩
  · intro a h hget
    have hx := hwf (a, h) (lookup_mem σ.mem a h hget)
    simp only [Bool.and_eq_true, decide_eq_true_eq] at hx
    obtain ⟨⟨ha, hl⟩, hr⟩ := hx
    refine ⟨ha, ?_, ?_⟩
    · intro b hb
      cases hleft : h.left with
      | none =>
        rw [hleft] at hb
        simp at hb
      | some b2 =>
        rw [hleft] at hb hl
        have hb2 : decide (b2 < σ.next) = true := hl
        rw [Option.mem_def] at hb
        injection hb with hb
        subst hb
        exact of_decide_eq_true hb2
    · intro b hb
      cases hright : h.right with
      | none =>
        rw [hright] at hb
        simp at hb
      | some b2 =>
        rw [hright] at hb hr
        have hb2 : decide (b2 < σ.next) = true := hr
        rw [Option.mem_def] at hb
        injection hb with hb
        subst hb
        exact of_decide_eq_true hb2
  · intro a h hget ha
    have hx := hwf (a, h) (lookup_mem σ.mem a h hget)
    simp only [Bool.and_eq_true, decide_eq_true_eq] at hx
    exact absurd hx.1.1 (by omega)

theorem readTreeF_frame (N : Nat) :
    ∀ (fr : Nat) (σ σ2 : Store) (r : Option Nat) (T : OptNode),
      (∀ a h, σ.get a = some h →
        a < N ∧ (∀ b ∈ h.left, b < N) ∧ (∀ b ∈ h.right, b < N)) →
      (∀ a, a < N → σ2.get a = σ.get a) →
      readTreeF fr σ r = some T → readTreeF fr σ2 r = some T := by
  intro fr
  induction fr with
  | zero =>
    intro σ σ2 r T _ _ hread
    cases r with
    | none => exact hread
    | some a => simp [readTreeF] at hread
  | succ fr ih =>
    intro σ σ2 r T hb hagree hread
    cases r with
    | none => exact hread
    | some a =>
      rw [readTreeF] at hread ⊢
      cases hget : σ.get a with
      | none =>
        simp only [hget] at hread
        exact Option.noConfusion hread
      | some n =>
        simp only [hget] at hread
        simp only [hagree a (hb a n hget).1, hget]
        cases hl : readTreeF fr σ n.left with
        | none =>
          simp only [hl] at hread
          exact Option.noConfusion hread
        | some lT =>
          cases hr : readTreeF fr σ n.right with
          | none =>
            simp only [hl, hr] at hread
            exact Option.noConfusion hread
          | some rT =>
            simp only [hl, hr] at hread
            simp only [ih σ σ2 n.left lT hb hagree hl,
              ih σ σ2 n.right rT hb hagree hr]
            exact hread

theorem deepcopyF_spec (N : Nat) :
    ∀ (fuel : Nat) (σ : Store) (r : Option Nat) (pr : Option Nat × Store),
      deepcopyF fuel σ r = some pr → storeInv N σ →
      storeInv N pr.2 ∧ σ.next ≤ pr.2.next ∧
      (∀ a, a < σ.next → pr.2.get a = σ.get a) ∧
      (∀ a ∈ pr.1, σ.next ≤ a ∧ a < pr.2.next) := by
  intro fuel
  induction fuel with
  | zero =>
    intro σ r pr h hinv
    cases r with
    | none =>
      rw [deepcopyF] at h
      injection h with h
      subst h
      exact ⟨hinv, le_refl _, fun a _ => rfl, fun a ha => absurd ha (by simp)⟩
    | some b => simp [deepcopyF] at h
  | succ fuel ih =>
    intro σ r pr h hinv
    cases r with
    | none =>
      rw [deepcopyF] at h
      injection h with h
      subst h
      exact ⟨hinv, le_refl _, fun a _ => rfl, fun a ha => absurd ha (by simp)⟩
    | some a =>
      rw [deepcopyF] at h
      cases hget : σ.get a with
      | none =>
        simp only [hget] at h
        exact Option.noConfusion h
      | some n =>
        simp only [hget] at h
        cases hl : deepcopyF fuel σ n.left with
        | none =>
          simp only [hl] at h
          exact Option.noConfusion h
        | some prl =>
          obtain ⟨lc, σ1⟩ := prl
          simp only [hl] at h
          cases hr : deepcopyF fuel σ1 n.right with
          | none =>
            simp only [hr] at h
            exact Option.noConfusion h
          | some prr =>
            obtain ⟨rc, σ2⟩ := prr
            simp only [hr, Store.alloc] at h
            injection h with h
            subst h
            obtain ⟨hinv1, hmono1, hfr1, hrange1⟩ := ih σ n.left (lc, σ1) hl hinv
            obtain ⟨hinv2, hmono2, hfr2, hrange2⟩ := ih σ1 n.right (rc, σ2) hr hinv1
            obtain ⟨hN2, hbound2, hclosed2⟩ := hinv2
            have hNs : N ≤ σ.next := hinv.1
            dsimp only [storeInv] at hmono1 hmono2 hfr1 hfr2 hrange1 hrange2 hN2 hbound2 hclosed2 ⊢
            refine ⟨⟨by omega, ?_, ?_⟩, by omega, ?_, ?_⟩
            · intro a2 h2 hg2
              rw [store_get_cons] at hg2
              by_cases hc : a2 = σ2.next
              · rw [if_pos hc] at hg2
                injection hg2 with hg2
                subst hg2
                refine ⟨by omega, ?_, ?_⟩
                · intro b hb
                  have := hrange1 b hb
                  omega
                · intro b hb
                  have := hrange2 b hb
                  omega
              · rw [if_neg hc] at hg2
                have hg3 : σ2.get a2 = some h2 := hg2
                obtain ⟨hb1, hb2, hb3⟩ := hbound2 a2 h2 hg3
                exact ⟨by omega, fun b hb => by have := hb2 b hb; omega,
                  fun b hb => by have := hb3 b hb; omega⟩
            · intro a2 h2 hg2 hN
              rw [store_get_cons] at hg2
              by_cases hc : a2 = σ2.next
              · rw [if_pos hc] at hg2
                injection hg2 with hg2
                subst hg2
                refine ⟨?_, ?_⟩
                · intro b hb
                  have := hrange1 b hb
                  omega
                · intro b hb
                  have := hrange2 b hb
                  omega
              · rw [if_neg hc] at hg2
                have hg3 : σ2.get a2 = some h2 := hg2
                exact hclosed2 a2 h2 hg3 hN
            · intro a2 ha2
              have hne : a2 ≠ σ2.next := by omega
              have hgc : (Store.get ⟨(σ2.next,
                  { n with
                    left := lc
                    right := rc }) :: σ2.mem, σ2.next + 1⟩ a2) =
                  σ2.get a2 := by
                rw [store_get_cons, if_neg hne]
                rfl
              rw [show ((some σ2.next,
                  (⟨(σ2.next,
                    { n with
                      left := lc
                      right := rc }) :: σ2.mem, σ2.next + 1⟩ : Store)) :
                    Option Nat × Store).2.get a2 = Store.get ⟨(σ2.next,
                  { n with
                    left := lc
                    right := rc }) :: σ2.mem, σ2.next + 1⟩ a2 from rfl,
                hgc, hfr2 a2 (by omega), hfr1 a2 ha2]
            · intro a2 ha2
              simp only [Option.mem_def] at ha2
              injection ha2 with ha2
              subst ha2
              omega

theorem nonLeavesF_above (N : Nat) :
    ∀ (fuel : Nat) (σ : Store) (r : Option Nat) (nl : List Nat),
      (∀ a h, σ.get a = some h → N ≤ a →
        (∀ b ∈ h.left, N ≤ b) ∧ (∀ b ∈ h.right, N ≤ b)) →
      (∀ a ∈ r, N ≤ a) →
      nonLeavesF fuel σ r = some nl → ∀ x ∈ nl, N ≤ x := by
  intro fuel
  induction fuel with
  | zero =>
    intro σ r nl _ _ h
    cases r with
    | none =>
      rw [nonLeavesF] at h
      injection h with h
      subst h
      intro x hx
      simp at hx
    | some a => simp [nonLeavesF] at h
  | succ fuel ih =>
    intro σ r nl hclosed hr h
    cases r with
    | none =>
      rw [nonLeavesF] at h
      injection h with h
      subst h
      intro x hx
      simp at hx
    | some a =>
      rw [nonLeavesF] at h
      cases hget : σ.get a with
      | none =>
        simp only [hget] at h
        exact Option.noConfusion h
      | some n =>
        simp only [hget] at h
        have hNa : N ≤ a := hr a (by simp)
        obtain ⟨hcl, hcr⟩ := hclosed a n hget hNa
        cases hl : nonLeavesF fuel σ n.left with
        | none =>
          simp only [hl] at h
          exact Option.noConfusion h
        | some ls =>
          cases hrr : nonLeavesF fuel σ n.right with
          | none =>
            simp only [hl, hrr] at h
            exact Option.noConfusion h
          | some rs =>
            simp only [hl, hrr] at h
            injection h with h
            subst h
            intro x hx
            rw [List.mem_append] at hx
            rcases hx with hx | hx
            · split at hx
              · simp at hx
              · rw [List.mem_singleton] at hx
                exact hx ▸ hNa
            · rw [List.mem_append] at hx
              rcases hx with hx | hx
              · exact ih σ n.left ls hclosed hcl hl x hx
              · exact ih σ n.right rs hclosed hcr hrr x hx

theorem collapseH_spec (N : Nat) (σ σ2 : Store) (t : Nat)
    (h : collapseH σ t = some σ2) (hinv : storeInv N σ) (hNt : N ≤ t) :
    storeInv N σ2 ∧ σ2.next = σ.next ∧
    (∀ a, a ≠ t → σ2.get a = σ.get a) := by
  rw [collapseH] at h
  cases hget : σ.get t with
  | none =>
    simp only [hget] at h
    exact Option.noConfusion h
  | some n =>
    simp only [hget] at h
    injection h with h
    obtain ⟨hN, hbound, hclosed⟩ := hinv
    have htlt : t < σ.next := (hbound t n hget).1
    subst h
    refine ⟨⟨?_, ?_, ?_⟩, rfl, ?_⟩
    · exact hN
    · intro a h2 hg2
      rw [store_get_set] at hg2
      by_cases hc : a = t
      · rw [if_pos hc] at hg2
        injection hg2 with hg2
        subst hg2
        refine ⟨?_, ?_, ?_⟩
        · show a < σ.next
          omega
        · intro b hb
          simp at hb
        · intro b hb
          simp at hb
      · rw [if_neg hc] at hg2
        exact hbound a h2 hg2
    · intro a h2 hg2 hNa
      rw [store_get_set] at hg2
      by_cases hc : a = t
      · rw [if_pos hc] at hg2
        injection hg2 with hg2
        subst hg2
        refine ⟨?_, ?_⟩
        · intro b hb
          simp at hb
        · intro b hb
          simp at hb
      · rw [if_neg hc] at hg2
        exact hclosed a h2 hg2 hNa
    · intro a hne
      rw [store_get_set, if_neg hne]

theorem innerH_frame (N fuel : Nat) (pick : Nat → Nat) :
    ∀ (steps j : Nat) (σ : Store) (cand : Option Nat) (σ2 : Store),
      innerH fuel pick j steps σ cand = some σ2 →
      storeInv N σ → (∀ a ∈ cand, N ≤ a) →
      storeInv N σ2 ∧ σ2.next = σ.next ∧
      (∀ a, a < N → σ2.get a = σ.get a) := by
  intro steps
  induction steps with
  | zero =>
    intro j σ cand σ2 h hinv _
    rw [innerH] at h
    injection h with h
    subst h
    exact ⟨hinv, rfl, fun a _ => rfl⟩
  | succ steps ih =>
    intro j σ cand σ2 h hinv hcand
    rw [innerH] at h
    cases hnl : nonLeavesF fuel σ cand with
    | none =>
      simp only [hnl] at h
      exact Option.noConfusion h
    | some nl =>
      simp only [hnl] at h
      by_cases hne : nl = []
      · rw [if_pos hne] at h
        injection h with h
        subst h
        exact ⟨hinv, rfl, fun a _ => rfl⟩
      · rw [if_neg hne] at h
        have hlen : 0 < nl.length := List.length_pos.mpr hne
        have hidx : pick j % nl.length < nl.length := Nat.mod_lt _ hlen
        have hmem : nl.getD (pick j % nl.length) 0 ∈ nl := by
          rw [List.getD_eq_getElem?_getD, List.getElem?_eq_getElem hidx,
            Option.getD_some]
          exact List.getElem_mem hidx
        have hNt : N ≤ nl.getD (pick j % nl.length) 0 :=
          nonLeavesF_above N fuel σ cand nl hinv.2.2 hcand hnl _ hmem
        cases hcol : collapseH σ (nl.getD (pick j % nl.length) 0) with
        | none =>
          simp only [hcol] at h
          exact Option.noConfusion h
        | some σ3 =>
          simp only [hcol] at h
          obtain ⟨hinv3, hnext3, hfr3⟩ := collapseH_spec N σ σ3 _ hcol hinv hNt
          obtain ⟨hinvF, hnextF, hfrF⟩ := ih (j + 1) σ3 cand σ2 h hinv3 hcand
          refine ⟨hinvF, by omega, fun a ha => ?_⟩
          rw [hfrF a ha, hfr3 a (by omega)]

theorem trialsH_frame (N fuel : Nat) (validation : List Row)
    (base : Option Nat) (kEff : Nat) (cnt : Nat → Nat)
    (pick : Nat → Nat → Nat) :
    ∀ (n : Nat) (σ : Store) (best : Option Nat) (score : ℚ)
      (pr : Store × Option Nat),
      trialsH fuel validation base kEff cnt pick n σ best score = some pr →
      storeInv N σ →
      storeInv N pr.1 ∧ (∀ a, a < N → pr.1.get a = σ.get a) := by
  intro n
  induction n with
  | zero =>
    intro σ best score pr h hinv
    rw [trialsH] at h
    injection h with h
    subst h
    exact ⟨hinv, fun a _ => rfl⟩
  | succ n ih =>
    intro σ best score pr h hinv
    rw [trialsH] at h
    cases hdc : deepcopyF fuel σ base with
    | none =>
      simp only [hdc] at h
      exact Option.noConfusion h
    | some prc =>
      obtain ⟨cand, σ1⟩ := prc
      simp only [hdc] at h
      obtain ⟨hinv1, hmono1, hfr1, hrange1⟩ :=
        deepcopyF_spec N fuel σ base (cand, σ1) hdc hinv
      dsimp only at hinv1 hmono1 hfr1 hrange1
      have hcand : ∀ a ∈ cand, N ≤ a := fun a ha =>
        le_trans hinv.1 (hrange1 a ha).1
      cases hin : innerH fuel (pick n) 0 (Nat.max (1 + cnt n % kEff) 1)
          σ1 cand with
      | none =>
        simp only [hin] at h
        exact Option.noConfusion h
      | some σ3 =>
        simp only [hin] at h
        obtain ⟨hinv3, hnext3, hfr3⟩ :=
          innerH_frame N fuel (pick n) _ 0 σ1 cand σ3 hin hinv1 hcand
        cases hacc : accuracyH fuel σ3 cand validation with
        | none =>
          simp only [hacc] at h
          exact Option.noConfusion h
        | some res =>
          simp only [hacc] at h
          cases res with
          | error e => exact Option.noConfusion h
          | ok acc =>
            have h2 : (if score < acc then
                trialsH fuel validation base kEff cnt pick n σ3 cand acc
              else
                trialsH fuel validation base kEff cnt pick n σ3 best score) =
                some pr := h
            have hcomp : ∀ a, a < N → σ3.get a = σ.get a := fun a ha => by
              rw [hfr3 a ha, hfr1 a (lt_of_lt_of_le ha hinv.1)]
            by_cases hlt : score < acc
            · rw [if_pos hlt] at h2
              obtain ⟨hinvF, hfrF⟩ := ih σ3 cand acc pr h2 hinv3
              exact ⟨hinvF, fun a ha => by rw [hfrF a ha, hcomp a ha]⟩
            · rw [if_neg hlt] at h2
              obtain ⟨hinvF, hfrF⟩ := ih σ3 best score pr h2 hinv3
              exact ⟨hinvF, fun a ha => by rw [hfrF a ha, hcomp a ha]⟩

/-- C9: `post_pruning` never mutates the base tree it is given.  In the heap
model of the Python objects, for every well-formed initial store, base-tree
reference, validation set, `l`, `k`, and every outcome of the random
choices, the tree read from the base reference — its structure, labels,
indices, and counts — is identical before and after the call: all mutation
happens on the deep copies. -/
theorem post_pruning_frame_effect (fuel fr : Nat) (l k : Int)
    (validation : List Row) (σ0 σF : Store) (base bF : Option Nat)
    (cnt : Nat → Nat) (pick : Nat → Nat → Nat) (T : OptNode)
    (hwf : storeBound σ0 = true)
    (hread : readTreeF fr σ0 base = some T)
    (hrun : post_pruningH fuel l k validation σ0 base cnt pick =
      some (σF, bF)) :
    readTreeF fr σF base = some T := by
  have hinv : storeInv σ0.next σ0 := storeBound_inv σ0 hwf
  rw [post_pruningH] at hrun
  cases hdc : deepcopyF fuel σ0 base with
  | none =>
    simp only [hdc] at hrun
    exact Option.noConfusion hrun
  | some prc =>
    obtain ⟨best0, σ1⟩ := prc
    simp only [hdc] at hrun
    obtain ⟨hinv1, hmono1, hfr1, _⟩ :=
      deepcopyF_spec σ0.next fuel σ0 base (best0, σ1) hdc hinv
    dsimp only at hinv1 hmono1 hfr1
    cases hacc : accuracyH fuel σ1 best0 validation with
    | none =>
      simp only [hacc] at hrun
      exact Option.noConfusion hrun
    | some res =>
      simp only [hacc] at hrun
      cases res with
      | error e => exact Option.noConfusion hrun
      | ok score =>
        have hrun2 : trialsH fuel validation base (max k 1).toNat cnt pick
            (max l 1).toNat σ1 best0 score = some (σF, bF) := hrun
        obtain ⟨hinvF, hfrF⟩ := trialsH_frame σ0.next fuel validation base
          (max k 1).toNat cnt pick (max l 1).toNat σ1 best0 score
          (σF, bF) hrun2 hinv1
        dsimp only at hinvF hfrF
        refine readTreeF_frame σ0.next fr σ0 σF base T hinv.2.1 ?_ hread
        intro a ha
        rw [hfrF a ha, hfr1 a ha]

/-- Witness for C9: on the concrete one-node heap, `post_pruning` runs to
completion (copying the leaf twice, with nothing to collapse) and the tree
read back from the base reference is unchanged. -/
theorem post_pruning_frame_effect_witness :
    storeBound demoStore = true ∧
    readTreeF 5 demoStore (some 10) =
      some (.node (some "1") 0 0 1 .absent .absent) ∧
    post_pruningH 5 1 1 [[("Class", 1)]] demoStore (some 10)
      (fun _ => 0) (fun _ _ => 0) = some (demoStoreFinal, some 11) ∧
    readTreeF 5 demoStoreFinal (some 10) =
      some (.node (some "1") 0 0 1 .absent .absent) := by
  have hc1 : calculate_accuracy [[("Class", (1 : Int))]]
      ⟨.node (some "1") 0 0 1 .absent .absent, 0⟩ = .ok 100 := by
    simp only [calculate_accuracy]
    rw [show accRows (.node (some "1") 0 0 1 .absent .absent)
        [[("Class", (1 : Int))]] = .ok 1 from by decide]
    norm_num
  have hd1 : deepcopyF 5 demoStore (some 10) =
      some (some 11, ⟨[(11, demoNode), (10, demoNode)], 12⟩) := by decide
  have ha1 : accuracyH 5 ⟨[(11, demoNode), (10, demoNode)], 12⟩ (some 11)
      [[("Class", (1 : Int))]] = some (.ok 100) := by
    rw [accuracyH, show readTreeF 5 ⟨[(11, demoNode), (10, demoNode)], 12⟩
        (some 11) = some (.node (some "1") 0 0 1 .absent .absent)
      from by decide]
    show some (calculate_accuracy [[("Class", (1 : Int))]]
      ⟨.node (some "1") 0 0 1 .absent .absent, 0⟩) = _
    rw [hc1]
  have hd2 : deepcopyF 5 ⟨[(11, demoNode), (10, demoNode)], 12⟩ (some 10) =
      some (some 12, demoStoreFinal) := by decide
  have hi2 : innerH 5 (fun _ => 0) 0 1 demoStoreFinal (some 12) =
      some demoStoreFinal := by decide
  have ha2 : accuracyH 5 demoStoreFinal (some 12) [[("Class", (1 : Int))]] =
      some (.ok 100) := by
    rw [accuracyH, show readTreeF 5 demoStoreFinal (some 12) =
        some (.node (some "1") 0 0 1 .absent .absent) from by decide]
    show some (calculate_accuracy [[("Class", (1 : Int))]]
      ⟨.node (some "1") 0 0 1 .absent .absent, 0⟩) = _
    rw [hc1]
  have hrun : post_pruningH 5 1 1 [[("Class", 1)]] demoStore (some 10)
      (fun _ => 0) (fun _ _ => 0) = some (demoStoreFinal, some 11) := by
    rw [post_pruningH]
    rw [show ((max (1 : Int) 1)).toNat = 1 from by decide]
    simp only [hd1]
    simp only [ha1]
    show trialsH 5 [[("Class", (1 : Int))]] (some 10) 1 (fun _ => 0)
      (fun _ _ => 0) (0 + 1) ⟨[(11, demoNode), (10, demoNode)], 12⟩
      (some 11) 100 = some (demoStoreFinal, some 11)
    rw [trialsH]
    simp only [hd2]
    norm_num
    simp only [hi2]
    simp only [ha2]
    rw [if_neg (lt_irrefl (100 : ℚ))]
    rw [trialsH]
  exact ⟨by decide, by decide, hrun,
    post_pruning_frame_effect 5 5 1 1 [[("Class", 1)]] demoStore
      demoStoreFinal (some 10) (some 11) (fun _ => 0) (fun _ _ => 0)
      (.node (some "1") 0 0 1 .absent .absent) (by decide) (by decide) hrun⟩
